import Mathlib

/-!
# Shamir secret reconstruction (`script.js`): embedding and verified properties

The core of `script.js` is embedded as pure Lean functions:

* `baseToDecimal`                        (lines 4-27)
* `gcdBigInt`, `abs`                     (lines 87-98)
* `generateCombinations` with its inner `backtrack`   (lines 30-48)
* `lagrangeInterpolation`                (lines 51-84)
* `findSecret`, from the point where the file has been parsed (lines 141-171)

JavaScript `BigInt` values are Lean `Int`s.  `BigInt` division `/` truncates towards
zero (`Int.tdiv`), `%` is the truncated remainder (`Int.tmod`), and both throw a
`RangeError` when the divisor is `0n`.  Thrown errors are values of `JsError` in the
`Except` monad.
-/

namespace Shamir

/-! ## Data model -/

/-- A share `[x, y]`: a two-element array of `BigInt`s. -/
abbrev Point := Int × Int

/-- The two errors that the interpolation code can throw. -/
inductive JsError
  /-- The error `new Error("Result is not an integer")` of line 80. -/
  | resultNotInteger
  /-- The error `RangeError: Division by zero`, thrown by `/` and `%` on a `0n` divisor. -/
  | divisionByZero
  deriving DecidableEq, Repr

/-- The `BigInt` division `a / b`: truncation towards zero, throwing on a zero divisor. -/
def bigDiv (a b : Int) : Except JsError Int :=
  if b = 0 then .error .divisionByZero else .ok (a.tdiv b)

/-- The `BigInt` remainder `a % b`: sign of the dividend, throwing on a zero divisor. -/
def bigMod (a b : Int) : Except JsError Int :=
  if b = 0 then .error .divisionByZero else .ok (a.tmod b)

/-! ## `baseToDecimal` (lines 4-27)

The string is read one UTF-16 code unit at a time; a Lean `Char` outside the basic plane
stands for a surrogate pair, whose first unit is no digit, as the `Char` itself is none.
The comparisons `digit >= '0'` of one-character strings compare the code units.  The base
is a natural number, so that `BigInt(base)` is defined. -/

/-- The two errors that `baseToDecimal` throws. -/
inductive DigitError
  /-- The error of line 17, thrown for a character outside the three digit ranges. -/
  | invalidDigit (digit : Char)
  /-- The error of line 21, thrown for a digit whose value is not below the base. -/
  | invalidForBase (digit : Char) (base : Nat)
  deriving DecidableEq, Repr

/-- The lines 10-18 of the loop body: the `value` of the character `digit`. -/
def digitOf (digit : Char) : Except DigitError Nat :=
  if '0' ≤ digit ∧ digit ≤ '9' then
    .ok (digit.toNat - '0'.toNat)
  else if 'a' ≤ digit ∧ digit ≤ 'z' then
    .ok (digit.toNat - 'a'.toNat + 10)
  else if 'A' ≤ digit ∧ digit ≤ 'Z' then
    .ok (digit.toNat - 'A'.toNat + 10)
  else
    .error (.invalidDigit digit)

/-- The body of the loop of `baseToDecimal` (lines 7-24) on the running `result`. -/
def baseToDecimalStep (base : Nat) (result : Int) (digit : Char) : Except DigitError Int := do
  let value ← digitOf digit
  if value ≥ base then
    throw (DigitError.invalidForBase digit base)
  pure (result * (base : Int) + (value : Int))

/-- The function `baseToDecimal(str, base)`: the loop over the characters from `0n`. -/
def baseToDecimal (str : String) (base : Nat) : Except DigitError Int :=
  str.data.foldlM (baseToDecimalStep base) 0

/-! ## `abs` and `gcdBigInt` (lines 87-98) -/

/-- The helper `abs(n)`: `n < 0n ? -n : n`. -/
def abs (n : Int) : Int := if n < 0 then -n else n

/-- The function `gcdBigInt(a, b)`: `while (b !== 0n) { temp = b; b = a % b; a = temp; } return a;`.
The remainder is only taken with `b ≠ 0`, so it never throws. -/
def gcdBigInt (a b : Int) : Int :=
  if b = 0 then a else gcdBigInt b (a.tmod b)
termination_by b.natAbs
decreasing_by
  rename_i hb
  have key : (a.tmod b).natAbs = a.natAbs % b.natAbs := by
    cases a <;> cases b <;> simp [Int.tmod] <;> rfl
  rw [key]
  exact Nat.mod_lt _ (Int.natAbs_pos.mpr hb)

/-! ## `generateCombinations` (lines 30-48) -/

mutual
/-- The inner function `backtrack(start, currentCombination)` of `generateCombinations`.
The array `combinations` that it pushes to is threaded through as `combinations`;
`currentCombination.push(arr[i])` followed, after the recursive call, by `pop()` is the
recursive call on `currentCombination ++ [arr[i]]`. -/
def backtrack {α : Type} (arr : List α) (k : Nat) (start : Nat) (currentCombination : List α)
    (combinations : List (List α)) : List (List α) :=
  if currentCombination.length = k then
    combinations ++ [currentCombination]
  else
    backtrackLoop arr k start currentCombination combinations
termination_by (arr.length - start, 1)
/-- The loop `for (let i = start; i < arr.length; i++)` of `backtrack`, from index `i` on. -/
def backtrackLoop {α : Type} (arr : List α) (k : Nat) (i : Nat) (currentCombination : List α)
    (combinations : List (List α)) : List (List α) :=
  if h : i < arr.length then
    backtrackLoop arr k (i + 1) currentCombination
      (backtrack arr k (i + 1) (currentCombination ++ [arr[i]]) combinations)
  else
    combinations
termination_by (arr.length - i, 0)
end

/-- The function `generateCombinations(arr, k)`: `backtrack(0, [])` on an empty `combinations`. -/
def generateCombinations {α : Type} (arr : List α) (k : Nat) : List (List α) :=
  backtrack arr k 0 [] []

/-! ## `lagrangeInterpolation` (lines 51-84) -/

/-- One pass of the inner loop body (lines 62-67) at index `j` with point `[xj, _]`,
on the pair `(numerator, denominator)`. -/
def basisStep (i : Nat) (xi : Int) (acc : Int × Int) (e : Nat × Point) : Int × Int :=
  if i ≠ e.1 then (acc.1 * (-e.2.1), acc.2 * (xi - e.2.1)) else acc

/-- The inner loop (lines 58-68): `(numerator, denominator)` for the point of index `i`
and abscissa `xi`, both starting at `1n`. -/
def basisFraction (points : List Point) (i : Nat) (xi : Int) : Int × Int :=
  points.enum.foldl (basisStep i xi) (1, 1)

/-- The body of the outer loop (lines 56-76) at index `e.1` with point `e.2 = [xi, yi]`,
on the running pair `(totalNumerator, totalDenominator)`. -/
def lagrangeStep (points : List Point) (total : Int × Int) (e : Nat × Point) :
    Except JsError (Int × Int) :=
  let xi := e.2.1
  let yi := e.2.2
  let numerator := (basisFraction points e.1 xi).1
  let denominator := (basisFraction points e.1 xi).2
  let newNumerator := total.1 * denominator + yi * numerator * total.2
  let newDenominator := total.2 * denominator
  let gcd := gcdBigInt (abs newNumerator) (abs newDenominator)
  do
    let totalNumerator ← bigDiv newNumerator gcd
    let totalDenominator ← bigDiv newDenominator gcd
    pure (totalNumerator, totalDenominator)

/-- The outer loop (lines 52-77): the running fraction after all points, from `(0n, 1n)`. -/
def lagrangeLoop (points : List Point) : Except JsError (Int × Int) :=
  points.enum.foldlM (lagrangeStep points) (0, 1)

/-- The function `lagrangeInterpolation(points)`: the loop, then the integrality test and
the final division of lines 79-83. -/
def lagrangeInterpolation (points : List Point) : Except JsError Int := do
  let total ← lagrangeLoop points
  let r ← bigMod total.1 total.2
  if r ≠ 0 then
    throw JsError.resultNotInteger
  bigDiv total.1 total.2

/-! ## `findSecret` (lines 141-171)

The `Map` `constantTermCounts` is an association list in insertion order (the order in
which a JavaScript `Map` is iterated; `set` on a key already present keeps its place).
Its keys are the decimal strings `constantTerm.toString()`; since that conversion is
injective the model keys the map by the integer itself, and the returned string is the
integer it denotes.  `null` is `none`. -/

/-- The method `Map.prototype.get`: the count stored under `key`, if any. -/
def mapGet (m : List (Int × Nat)) (key : Int) : Option Nat :=
  (m.find? (fun e => e.1 = key)).map Prod.snd

/-- The method `Map.prototype.set`: overwrite in place when `key` is present, append otherwise. -/
def mapSet (m : List (Int × Nat)) (key : Int) (value : Nat) : List (Int × Nat) :=
  if (mapGet m key).isSome then
    m.map (fun e => if e.1 = key then (key, value) else e)
  else
    m ++ [(key, value)]

/-- The body of the tally loop (lines 148-155) for one combination: a successful
interpolation increments its count, a thrown error is caught and skipped. -/
def tallyStep (constantTermCounts : List (Int × Nat)) (combination : List Point) :
    List (Int × Nat) :=
  match lagrangeInterpolation combination with
  | .ok constantTerm =>
      mapSet constantTermCounts constantTerm ((mapGet constantTermCounts constantTerm).getD 0 + 1)
  | .error _ => constantTermCounts

/-- The body of the selection loop (lines 164-168) on `(maxCount, mostFrequentSecret)`. -/
def selectStep (best : Nat × Option Int) (entry : Int × Nat) : Nat × Option Int :=
  if entry.2 > best.1 then (entry.2, some entry.1) else best

/-- The reconstruction of `findSecret` on the parsed `points` and `k`: all
`k`-combinations, the tally of the interpolations that succeed, and the entry with
the highest count. -/
def findSecret (points : List Point) (k : Nat) : Option Int :=
  let combinations := generateCombinations points k
  let constantTermCounts := combinations.foldl tallyStep []
  (constantTermCounts.foldl selectStep (0, none)).2


/-! ## Definitions used to state the properties -/

/-- The exact rational sum of the interpolation formula, as the specification words it:
the sum over `i` of `yi * (product over j ≠ i of (0 - xj)) / (product over j ≠ i of (xi - xj))`. -/
def lagrangeSum (points : List Point) : ℚ :=
  ∑ i : Fin points.length,
    ((points.get i).2 : ℚ) *
      (∏ j in Finset.univ.erase i, ((0 : ℚ) - (points.get j).1)) /
      (∏ j in Finset.univ.erase i, (((points.get i).1 : ℚ) - (points.get j).1))

/-- The rational contribution of the point `e` of index `e.1`: line 71's `yi * numerator`
over `denominator`. -/
def termOf (points : List Point) (e : Nat × Point) : ℚ :=
  (e.2.2 : ℚ) * ((basisFraction points e.1 e.2.1).1 : ℚ) / ((basisFraction points e.1 e.2.1).2 : ℚ)

/-- Whether the interpolation of `combination` succeeds with the value `v`. -/
def yields (v : Int) (combination : List Point) : Bool :=
  match lagrangeInterpolation combination with
  | .ok w => decide (w = v)
  | .error _ => false

/-- The number of combinations of the list whose interpolation succeeds with value `v`. -/
def votes (combinations : List (List Point)) (v : Int) : Nat :=
  combinations.countP (yields v)

/-- The position in the list of the first combination whose interpolation succeeds with
value `v` (the length of the list when there is none). -/
def firstSeen (combinations : List (List Point)) (v : Int) : Nat :=
  combinations.findIdx (yields v)

/-- The tally loop of `findSecret` (lines 144-156) on a list of combinations. -/
def tally (combinations : List (List Point)) : List (Int × Nat) :=
  combinations.foldl tallyStep []

/-- The state of the tally: the entries are the values with at least one vote, each with
its number of votes, in the order in which the values were first seen. -/
def TallyInv (cs : List (List Point)) (m : List (Int × Nat)) : Prop :=
  (∀ w n, (w, n) ∈ m ↔ (n = votes cs w ∧ 0 < n)) ∧
  (m.map Prod.fst).Pairwise (fun a b => firstSeen cs a < firstSeen cs b)

/-- The divisor `gcd` of line 74 in the iteration for the indexed point `e`, entered with
the running pair `total`. -/
def stepGcd (points : List Point) (total : Int × Int) (e : Nat × Point) : Int :=
  gcdBigInt
    (abs (total.1 * (basisFraction points e.1 e.2.1).2 +
      e.2.2 * (basisFraction points e.1 e.2.1).1 * total.2))
    (abs (total.2 * (basisFraction points e.1 e.2.1).2))

/-- The running pair `(totalNumerator, totalDenominator)` after the first `m` iterations of
the outer loop (the initial pair for `m = 0`). -/
def lagrangeLoopAfter (points : List Point) (m : Nat) : Except JsError (Int × Int) :=
  (points.enum.take m).foldlM (lagrangeStep points) (0, 1)

/-- The digit value that the specification gives to a character: `'0'`-`'9'` are 0-9, and
`'a'`-`'z'` and `'A'`-`'Z'` are both 10-35; no other character is a digit. -/
def digitValue (c : Char) : Option Nat :=
  if c.isDigit then some (c.toNat - 48)
  else if c.isLower then some (c.toNat - 97 + 10)
  else if c.isUpper then some (c.toNat - 65 + 10)
  else none

/-- The positional value of a list of characters in base `b`: the sum over `i` of
`value(s[i]) * b ^ (len(s) - 1 - i)`. -/
def positionalValue (s : List Char) (b : Nat) : Int :=
  ∑ i : Fin s.length, (((digitValue (s.get i)).getD 0 : Nat) : Int) * (b : Int) ^ (s.length - 1 - i.1)

/-! ## Combinations: the enumeration is the reversed `List.sublistsLen` -/

/-- The reversed `sublistsLen` of a list with a head: first the sublists that take the head. -/
theorem reverse_sublistsLen_succ_cons {α : Type} (m : Nat) (a : α) (l : List α) :
    (List.sublistsLen (m + 1) (a :: l)).reverse =
      (List.sublistsLen m l).reverse.map (List.cons a) ++ (List.sublistsLen (m + 1) l).reverse := by
  rw [List.sublistsLen_succ_cons, List.reverse_append, List.map_reverse]

/-- What `backtrack` and its loop append to `combinations`, by induction on the number of
array positions left. -/
theorem backtrack_aux {α : Type} (arr : List α) (k : Nat) (d : Nat) :
    ∀ i, arr.length - i ≤ d →
      (∀ cur acc, cur.length ≤ k → backtrack arr k i cur acc =
        acc ++ (List.sublistsLen (k - cur.length) (arr.drop i)).reverse.map (cur ++ ·)) ∧
      (∀ cur acc, cur.length < k → backtrackLoop arr k i cur acc =
        acc ++ (List.sublistsLen (k - cur.length) (arr.drop i)).reverse.map (cur ++ ·)) := by
  induction d with
  | zero =>
    intro i hi
    have hloop : ∀ cur acc, cur.length < k → backtrackLoop arr k i cur acc =
        acc ++ (List.sublistsLen (k - cur.length) (arr.drop i)).reverse.map (cur ++ ·) := by
      intro cur acc hc
      rw [backtrackLoop, dif_neg (by omega), List.drop_of_length_le (by omega)]
      obtain ⟨m, hm⟩ : ∃ m, k - cur.length = m + 1 := ⟨k - cur.length - 1, by omega⟩
      simp [hm]
    refine ⟨?_, hloop⟩
    intro cur acc hc
    rw [backtrack]
    split
    · next h => simp [h]
    · next h => exact hloop cur acc (by omega)
  | succ d ih =>
    intro i hi
    have hloop : ∀ cur acc, cur.length < k → backtrackLoop arr k i cur acc =
        acc ++ (List.sublistsLen (k - cur.length) (arr.drop i)).reverse.map (cur ++ ·) := by
      intro cur acc hc
      obtain ⟨m, hm⟩ : ∃ m, k - cur.length = m + 1 := ⟨k - cur.length - 1, by omega⟩
      rw [backtrackLoop]
      split
      · next h =>
        have h1 := (ih (i + 1) (by omega)).1 (cur ++ [arr[i]]) acc (by simp; omega)
        have h2 := (ih (i + 1) (by omega)).2 cur
        rw [h2 _ hc, h1, List.drop_eq_getElem_cons h, hm, reverse_sublistsLen_succ_cons]
        have hm2 : k - (cur ++ [arr[i]]).length = m := by simp; omega
        rw [hm2]
        simp [List.append_assoc]
      · next h =>
        rw [List.drop_of_length_le (by omega)]
        simp [hm]
    refine ⟨?_, hloop⟩
    intro cur acc hc
    rw [backtrack]
    split
    · next h => simp [h]
    · next h => exact hloop cur acc (by omega)

/-- The list returned by `generateCombinations` is `List.sublistsLen k arr`, reversed. -/
theorem generateCombinations_eq {α : Type} (arr : List α) (k : Nat) :
    generateCombinations arr k = (List.sublistsLen k arr).reverse := by
  have h := (backtrack_aux arr k arr.length 0 (by omega)).1 [] [] (by simp)
  simpa [generateCombinations] using h


/-- The function `sublistsLen` commutes with mapping a function over the elements. -/
theorem sublistsLen_map_eq {α β : Type} (f : α → β) (l : List α) :
    ∀ k, List.sublistsLen k (l.map f) = (List.sublistsLen k l).map (List.map f) := by
  induction l with
  | nil =>
    intro k
    cases k <;> simp
  | cons a l ih =>
    intro k
    cases k with
    | zero => simp
    | succ k =>
      simp only [List.map_cons, List.sublistsLen_succ_cons, ih, List.map_append, List.map_map]
      congr 1

/-- Running on the array is running on its positions and then reading the array. -/
theorem generateCombinations_indices {α : Type} (arr : List α) (k : Nat) :
    generateCombinations arr k =
      (generateCombinations (List.finRange arr.length) k).map (fun t => t.map arr.get) := by
  rw [generateCombinations_eq, generateCombinations_eq, List.map_reverse,
    ← sublistsLen_map_eq, List.finRange_map_get]

/-- The index tuples emitted on `n` positions: the strictly increasing ones of length `k`. -/
theorem mem_generateCombinations_finRange (n k : Nat) (t : List (Fin n)) :
    t ∈ generateCombinations (List.finRange n) k ↔ t.length = k ∧ t.Pairwise (· < ·) := by
  rw [generateCombinations_eq, List.mem_reverse, List.mem_sublistsLen]
  constructor
  · rintro ⟨hs, hl⟩
    exact ⟨hl, List.Pairwise.sublist hs (List.pairwise_lt_finRange n)⟩
  · rintro ⟨hl, hp⟩
    refine ⟨?_, hl⟩
    have hnd : t.Nodup := hp.imp (fun h => ne_of_lt h)
    have hsub : t.Subperm (List.finRange n) :=
      List.subperm_of_subset hnd (fun a _ => List.mem_finRange a)
    have h1 : List.Sorted (· ≤ ·) t := hp.imp (fun h => le_of_lt h)
    have h2 : List.Sorted (· ≤ ·) (List.finRange n) :=
      (List.pairwise_lt_finRange n).imp (fun h => le_of_lt h)
    exact List.sublist_of_subperm_of_sorted hsub h1 h2

/-- No index tuple is emitted twice. -/
theorem nodup_generateCombinations_finRange (n k : Nat) :
    (generateCombinations (List.finRange n) k).Nodup := by
  rw [generateCombinations_eq, List.nodup_reverse]
  exact List.nodup_sublistsLen k (List.nodup_finRange n)

/-- Membership in the output: the sublists of length `k`. -/
theorem mem_generateCombinations {α : Type} (arr : List α) (k : Nat) (c : List α) :
    c ∈ generateCombinations arr k ↔ c.Sublist arr ∧ c.length = k := by
  rw [generateCombinations_eq, List.mem_reverse, List.mem_sublistsLen]

/-- An element of a list without repeats is counted once. -/
theorem count_eq_one_of_nodup_of_mem {β : Type} [BEq β] [LawfulBEq β] (l : List β) (a : β)
    (hnd : l.Nodup) (ha : a ∈ l) : l.count a = 1 := by
  induction l with
  | nil => cases ha
  | cons b l ih =>
    rw [List.nodup_cons] at hnd
    rw [List.count_cons]
    rcases List.mem_cons.mp ha with rfl | h
    · simp [List.count_eq_zero.mpr hnd.1]
    · have hne : b ≠ a := fun e => hnd.1 (e ▸ h)
      simp [ih hnd.2 h, hne]

/-- Claim C7. For every `k` (in particular for `1 ≤ k ≤ n`), the output of
`generateCombinations(arr, k)` is, position by position, the image under `arr[·]` of a
list `idx` of index tuples in which every strictly increasing `k`-tuple of indices occurs
exactly once, which has no repeated tuple, and all of whose members are strictly
increasing tuples of length `k`. -/
theorem generateCombinations_complete {α : Type} (arr : List α) (k : Nat) :
    ∃ idx : List (List (Fin arr.length)),
      generateCombinations arr k = idx.map (fun t => t.map arr.get) ∧
      (∀ t : List (Fin arr.length), t.length = k → t.Pairwise (· < ·) → idx.count t = 1) ∧
      idx.Nodup ∧
      (∀ t ∈ idx, t.length = k ∧ t.Pairwise (· < ·)) := by
  refine ⟨generateCombinations (List.finRange arr.length) k,
    generateCombinations_indices arr k, ?_, nodup_generateCombinations_finRange _ k, ?_⟩
  · intro t hl hp
    exact count_eq_one_of_nodup_of_mem _ t (nodup_generateCombinations_finRange _ k)
      ((mem_generateCombinations_finRange _ k t).mpr ⟨hl, hp⟩)
  · intro t ht
    exact (mem_generateCombinations_finRange _ k t).mp ht

/-- Claim C8. `generateCombinations(arr, k)` returns `C(n, k)` combinations for every `k`;
for `k = n` the single combination `arr`; for `k > n` none. -/
theorem generateCombinations_count {α : Type} (arr : List α) :
    (∀ k, (generateCombinations arr k).length = Nat.choose arr.length k) ∧
    generateCombinations arr arr.length = [arr] ∧
    (∀ j, generateCombinations arr (arr.length + 1 + j) = []) := by
  refine ⟨fun k => ?_, ?_, fun j => ?_⟩
  · rw [generateCombinations_eq, List.length_reverse, List.length_sublistsLen]
  · rw [generateCombinations_eq, List.sublistsLen_length, List.reverse_singleton]
  · rw [generateCombinations_eq, List.sublistsLen_of_length_lt (by omega), List.reverse_nil]


/-! ## `gcdBigInt` on non-negative operands -/

/-- On natural numbers `gcdBigInt` computes `Nat.gcd`. -/
theorem gcdBigInt_natCast (n : Nat) : ∀ m : Nat, gcdBigInt (m : Int) (n : Int) = (Nat.gcd m n : Int) := by
  induction n using Nat.strong_induction_on with
  | _ n ih =>
    intro m
    rw [gcdBigInt]
    split
    · next h =>
      have : n = 0 := by exact_mod_cast h
      subst this
      simp
    · next h =>
      have hn : 0 < n := Nat.pos_of_ne_zero (fun e => h (by simp [e]))
      rw [← Int.ofNat_tmod, ih (m % n) (Nat.mod_lt m hn) n, Nat.gcd_comm n, ← Nat.gcd_rec,
        Nat.gcd_comm]

/-- The helper `abs` is the absolute value. -/
theorem abs_eq_natAbs (n : Int) : abs n = (n.natAbs : Int) := by
  unfold abs
  split <;> omega

/-- The divisor computed on line 74 is the greatest common divisor of the new fraction. -/
theorem gcdBigInt_abs (a b : Int) : gcdBigInt (abs a) (abs b) = (Int.gcd a b : Int) := by
  rw [abs_eq_natAbs, abs_eq_natAbs, gcdBigInt_natCast]
  rfl


/-! ## The interpolation loop computes the exact rational sum -/

/-- Reducing a fraction with non-zero denominator by line 74-76: both divisions succeed,
are exact, leave a non-zero denominator, the same rational value, and lowest terms. -/
theorem reduce_spec (a b : Int) (hb : b ≠ 0) :
    ∃ n d : Int,
      bigDiv a (gcdBigInt (abs a) (abs b)) = .ok n ∧
      bigDiv b (gcdBigInt (abs a) (abs b)) = .ok d ∧
      d ≠ 0 ∧ ((n : ℚ) / d = (a : ℚ) / b) ∧ Int.gcd n d = 1 := by
  have hg : ((Int.gcd a b : Nat) : Int) ≠ 0 := by
    have : Int.gcd a b ≠ 0 := by
      intro h
      exact hb ((Int.gcd_eq_zero_iff.mp h).2)
    exact_mod_cast this
  have hga : ((Int.gcd a b : Nat) : Int) ∣ a := Int.gcd_dvd_left
  have hgb : ((Int.gcd a b : Nat) : Int) ∣ b := Int.gcd_dvd_right
  obtain ⟨n, hn⟩ := hga
  obtain ⟨d, hd⟩ := hgb
  have hd0 : d ≠ 0 := by
    rintro rfl
    exact hb (by rw [hd]; simp)
  refine ⟨n, d, ?_, ?_, hd0, ?_, ?_⟩
  · rw [gcdBigInt_abs, bigDiv, if_neg hg]
    congr 1
    exact Int.tdiv_eq_of_eq_mul_right hg hn
  · rw [gcdBigInt_abs, bigDiv, if_neg hg]
    congr 1
    exact Int.tdiv_eq_of_eq_mul_right hg hd
  · have hgq : ((Int.gcd a b : Int) : ℚ) ≠ 0 := by exact_mod_cast hg
    have hdq : (d : ℚ) ≠ 0 := by exact_mod_cast hd0
    have hbq : (b : ℚ) ≠ 0 := by exact_mod_cast hb
    have hn' : (a : ℚ) = (Int.gcd a b : Int) * n := by exact_mod_cast hn
    have hd' : (b : ℚ) = (Int.gcd a b : Int) * d := by exact_mod_cast hd
    rw [div_eq_div_iff hdq hbq, hn', hd']
    ring
  · have hpos : 0 < Int.gcd a b := Nat.pos_of_ne_zero (fun h => hg (by simp [h]))
    have h1 := Int.gcd_div_gcd_div_gcd hpos
    have e1 : a / (Int.gcd a b : Int) = n := Int.ediv_eq_of_eq_mul_right hg hn
    have e2 : b / (Int.gcd a b : Int) = d := Int.ediv_eq_of_eq_mul_right hg hd
    rw [e1, e2] at h1
    exact h1

/-- One iteration of the outer loop on a running fraction with non-zero denominator, for a
point whose `denominator` is non-zero. -/
theorem lagrangeStep_spec (points : List Point) (total : Int × Int) (e : Nat × Point)
    (ht : total.2 ≠ 0) (he : (basisFraction points e.1 e.2.1).2 ≠ 0) :
    ∃ n d : Int, lagrangeStep points total e = .ok (n, d) ∧ d ≠ 0 ∧
      (n : ℚ) / d = (total.1 : ℚ) / total.2 + termOf points e ∧ Int.gcd n d = 1 := by
  obtain ⟨n, d, h1, h2, hd, hq, hg⟩ := reduce_spec
    (total.1 * (basisFraction points e.1 e.2.1).2 +
      e.2.2 * (basisFraction points e.1 e.2.1).1 * total.2)
    (total.2 * (basisFraction points e.1 e.2.1).2) (mul_ne_zero ht he)
  refine ⟨n, d, ?_, hd, ?_, hg⟩
  · simp only [lagrangeStep, h1, h2]
    rfl
  · rw [hq, termOf]
    have h3 : (total.2 : ℚ) ≠ 0 := by exact_mod_cast ht
    have h4 : ((basisFraction points e.1 e.2.1).2 : ℚ) ≠ 0 := by exact_mod_cast he
    push_cast
    field_simp

/-- The outer loop over any list of indexed points with non-zero `denominator`s, from any
running fraction with non-zero denominator: it does not throw and adds up the terms. -/
theorem lagrangeFold_spec (points : List Point) (l : List (Nat × Point))
    (hl : ∀ e ∈ l, (basisFraction points e.1 e.2.1).2 ≠ 0) :
    ∀ total : Int × Int, total.2 ≠ 0 →
      ∃ n d : Int, l.foldlM (lagrangeStep points) total = .ok (n, d) ∧ d ≠ 0 ∧
        (n : ℚ) / d = (total.1 : ℚ) / total.2 + (l.map (termOf points)).sum := by
  induction l with
  | nil =>
    intro total ht
    exact ⟨total.1, total.2, rfl, ht, by simp⟩
  | cons e l ih =>
    intro total ht
    obtain ⟨n, d, h1, hd, hq, -⟩ := lagrangeStep_spec points total e ht
      (hl e (List.mem_cons_self _ _))
    obtain ⟨n', d', h2, hd', hq'⟩ := ih (fun x hx => hl x (List.mem_cons_of_mem _ hx)) (n, d) hd
    refine ⟨n', d', ?_, hd', ?_⟩
    · rw [List.foldlM_cons, h1]
      exact h2
    · rw [hq', hq, List.map_cons, List.sum_cons]
      ring

/-- The inner loop as two products over the indexed points. -/
theorem basisFold_eq (i : Nat) (xi : Int) (l : List (Nat × Point)) :
    ∀ acc : Int × Int, l.foldl (basisStep i xi) acc =
      (acc.1 * (l.map (fun e => if i ≠ e.1 then -e.2.1 else 1)).prod,
       acc.2 * (l.map (fun e => if i ≠ e.1 then xi - e.2.1 else 1)).prod) := by
  induction l with
  | nil => intro acc; simp
  | cons e l ih =>
    intro acc
    rw [List.foldl_cons, ih]
    by_cases h : i = e.1
    · simp [basisStep, h]
    · simp [basisStep, h, mul_assoc]

/-- The indexed points of an array, through its positions. -/
theorem enum_eq_map_finRange {α : Type} (l : List α) :
    l.enum = (List.finRange l.length).map (fun i => (i.1, l.get i)) := by
  apply List.ext_getElem
  · simp
  · intro n h1 h2
    simp

/-- A product over the indexed points is a product over the positions. -/
theorem prod_enum_map {α M : Type} [CommMonoid M] (l : List α) (g : Nat × α → M) :
    (l.enum.map g).prod = ∏ i : Fin l.length, g (i.1, l.get i) := by
  rw [enum_eq_map_finRange, List.map_map, Fin.prod_univ_def]
  rfl

/-- A sum over the indexed points is a sum over the positions. -/
theorem sum_enum_map {α M : Type} [AddCommMonoid M] (l : List α) (g : Nat × α → M) :
    (l.enum.map g).sum = ∑ i : Fin l.length, g (i.1, l.get i) := by
  rw [enum_eq_map_finRange, List.map_map, Fin.sum_univ_def]
  rfl

/-- The `numerator` and `denominator` of the point at position `i`. -/
theorem basisFraction_eq (points : List Point) (i : Fin points.length) (xi : Int) :
    basisFraction points i.1 xi =
      (∏ j in Finset.univ.erase i, -(points.get j).1,
       ∏ j in Finset.univ.erase i, (xi - (points.get j).1)) := by
  rw [basisFraction, basisFold_eq, prod_enum_map, prod_enum_map]
  simp only [one_mul, ne_eq, Fin.val_inj, ← Finset.filter_ne, Finset.prod_filter]

/-- Distinct abscissas at distinct positions. -/
theorem fst_get_ne (points : List Point) (hx : points.Pairwise (fun p q => p.1 ≠ q.1))
    (i j : Fin points.length) (hij : i ≠ j) : (points.get i).1 ≠ (points.get j).1 := by
  rw [List.pairwise_iff_get] at hx
  rcases lt_or_gt_of_ne hij with h | h
  · exact hx i j h
  · exact (hx j i h).symm

/-- With pairwise distinct abscissas every `denominator` is non-zero. -/
theorem basisFraction_snd_ne_zero (points : List Point)
    (hx : points.Pairwise (fun p q => p.1 ≠ q.1)) (i : Fin points.length) :
    (basisFraction points i.1 (points.get i).1).2 ≠ 0 := by
  rw [basisFraction_eq]
  simp only
  rw [Finset.prod_ne_zero_iff]
  intro j hj
  have hji : j ≠ i := Finset.ne_of_mem_erase hj
  exact sub_ne_zero.mpr (fst_get_ne points hx i j hji.symm)

/-- The terms that the loop adds up are those of the specification's sum. -/
theorem sum_termOf_eq (points : List Point) :
    (points.enum.map (termOf points)).sum = lagrangeSum points := by
  rw [sum_enum_map, lagrangeSum]
  refine Finset.sum_congr rfl (fun i _ => ?_)
  rw [termOf]
  simp only [basisFraction_eq]
  push_cast
  simp

/-- The outer loop under pairwise distinct abscissas: it ends without throwing on a
fraction with non-zero denominator whose value is the specification's sum. -/
theorem lagrangeLoop_spec (points : List Point)
    (hx : points.Pairwise (fun p q => p.1 ≠ q.1)) :
    ∃ n d : Int, lagrangeLoop points = .ok (n, d) ∧ d ≠ 0 ∧
      (n : ℚ) / d = lagrangeSum points := by
  have hl : ∀ e ∈ points.enum, (basisFraction points e.1 e.2.1).2 ≠ 0 := by
    intro e he
    rw [enum_eq_map_finRange, List.mem_map] at he
    obtain ⟨i, -, rfl⟩ := he
    exact basisFraction_snd_ne_zero points hx i
  obtain ⟨n, d, h1, hd, hq⟩ := lagrangeFold_spec points points.enum hl (0, 1) one_ne_zero
  refine ⟨n, d, h1, hd, ?_⟩
  rw [hq, sum_termOf_eq]
  simp

/-- Lines 79-83 after a loop that ended on `(n, d)` with `d ≠ 0`. -/
theorem lagrangeInterpolation_of_loop (points : List Point) (n d : Int)
    (h : lagrangeLoop points = .ok (n, d)) (hd : d ≠ 0) :
    lagrangeInterpolation points =
      if n.tmod d ≠ 0 then .error .resultNotInteger else .ok (n.tdiv d) := by
  simp only [lagrangeInterpolation, h, bigMod, bigDiv, bind, Except.bind, if_neg hd]
  by_cases hm : n.tmod d = 0
  · simp [hm]
    rfl
  · simp [hm]

/-- The outcome of `lagrangeInterpolation` under pairwise distinct abscissas, in terms of
the specification's sum. -/
theorem lagrangeInterpolation_cases (points : List Point)
    (hx : points.Pairwise (fun p q => p.1 ≠ q.1)) :
    (∃ v : Int, lagrangeSum points = (v : ℚ) ∧ lagrangeInterpolation points = .ok v) ∨
    ((∀ v : Int, lagrangeSum points ≠ (v : ℚ)) ∧
      lagrangeInterpolation points = .error .resultNotInteger) := by
  obtain ⟨n, d, h1, hd, hq⟩ := lagrangeLoop_spec points hx
  have hdq : (d : ℚ) ≠ 0 := by exact_mod_cast hd
  rw [lagrangeInterpolation_of_loop points n d h1 hd]
  by_cases hm : n.tmod d = 0
  · left
    have hdvd : d ∣ n := Int.dvd_of_tmod_eq_zero hm
    obtain ⟨c, hc⟩ := hdvd
    refine ⟨c, ?_, ?_⟩
    · rw [← hq, hc]
      push_cast
      field_simp
    · rw [if_neg (by simpa using hm), Int.tdiv_eq_of_eq_mul_right hd hc]
  · right
    refine ⟨?_, by rw [if_pos hm]⟩
    intro v hv
    apply hm
    apply Int.tmod_eq_zero_of_dvd
    refine ⟨v, ?_⟩
    have : (n : ℚ) = d * v := by
      rw [← hq] at hv
      field_simp at hv
      rw [hv]; ring
    exact_mod_cast this

/-- When the specification's sum is the integer `v`, that integer is returned. -/
theorem lagrangeInterpolation_ok_of_sum (points : List Point)
    (hx : points.Pairwise (fun p q => p.1 ≠ q.1)) (v : Int)
    (hv : lagrangeSum points = (v : ℚ)) : lagrangeInterpolation points = .ok v := by
  rcases lagrangeInterpolation_cases points hx with ⟨w, hw, hr⟩ | ⟨hn, -⟩
  · have h1 : (w : ℚ) = v := by rw [← hw, hv]
    have h2 : w = v := by exact_mod_cast h1
    rw [hr, h2]
  · exact absurd hv (hn v)

/-- When the specification's sum is no integer, "Result is not an integer" is thrown. -/
theorem lagrangeInterpolation_error_of_sum (points : List Point)
    (hx : points.Pairwise (fun p q => p.1 ≠ q.1))
    (hv : ∀ v : Int, lagrangeSum points ≠ (v : ℚ)) :
    lagrangeInterpolation points = .error .resultNotInteger := by
  rcases lagrangeInterpolation_cases points hx with ⟨w, hw, -⟩ | ⟨-, hr⟩
  · exact absurd hw (hv w)
  · exact hr

/-- Claim C2. With pairwise distinct abscissas, `lagrangeInterpolation(points)` returns the
integer `v` when the exact rational sum `S` equals `v`, throws "Result is not an integer"
when `S` is no integer, and has no other outcome (no division by zero). -/
theorem lagrangeInterpolation_eq_sum (points : List Point)
    (hx : points.Pairwise (fun p q => p.1 ≠ q.1)) :
    (∀ v : Int, lagrangeSum points = (v : ℚ) → lagrangeInterpolation points = .ok v) ∧
    ((∀ v : Int, lagrangeSum points ≠ (v : ℚ)) →
      lagrangeInterpolation points = .error .resultNotInteger) ∧
    lagrangeInterpolation points ≠ .error .divisionByZero := by
  refine ⟨lagrangeInterpolation_ok_of_sum points hx,
    lagrangeInterpolation_error_of_sum points hx, ?_⟩
  rcases lagrangeInterpolation_cases points hx with ⟨v, -, hr⟩ | ⟨-, hr⟩ <;>
  · rw [hr]
    intro h
    cases h

/-- Witness for C2 on the two points of the line `y = 2x + 1`. -/
theorem lagrangeInterpolation_eq_sum_witness :
    [((1 : Int), (3 : Int)), (2, 5)].Pairwise (fun p q => p.1 ≠ q.1) ∧
    (∀ v : Int, lagrangeSum [(1, 3), (2, 5)] = (v : ℚ) →
      lagrangeInterpolation [(1, 3), (2, 5)] = .ok v) ∧
    ((∀ v : Int, lagrangeSum [(1, 3), (2, 5)] ≠ (v : ℚ)) →
      lagrangeInterpolation [(1, 3), (2, 5)] = .error .resultNotInteger) ∧
    lagrangeInterpolation [(1, 3), (2, 5)] ≠ .error .divisionByZero :=
  ⟨by decide, lagrangeInterpolation_eq_sum [(1, 3), (2, 5)] (by decide)⟩

/-- Lagrange's theorem at `0`: for points with pairwise distinct abscissas on a rational
polynomial of degree below their number, the specification's sum is the value at `0`. -/
theorem lagrangeSum_eq_eval_zero (points : List Point) (p : Polynomial ℚ)
    (hx : points.Pairwise (fun a b => a.1 ≠ b.1))
    (hdeg : p.degree < points.length)
    (hon : ∀ pt ∈ points, p.eval (pt.1 : ℚ) = pt.2) :
    lagrangeSum points = p.eval 0 := by
  have hinj : Set.InjOn (fun i : Fin points.length => ((points.get i).1 : ℚ))
      (Finset.univ : Finset (Fin points.length)) := by
    intro i _ j _ hij
    by_contra hne
    have hij2 : ((points.get i).1 : ℚ) = ((points.get j).1 : ℚ) := hij
    exact fst_get_ne points hx i j hne (by exact_mod_cast hij2)
  have hp := Lagrange.eq_interpolate_of_eval_eq
    (s := (Finset.univ : Finset (Fin points.length)))
    (v := fun i => ((points.get i).1 : ℚ)) (fun i => ((points.get i).2 : ℚ)) hinj
    (f := p) (by simpa using hdeg) (fun i _ => hon _ (List.get_mem _ _ _))
  conv_rhs => rw [hp]
  rw [Lagrange.interpolate_apply, Polynomial.eval_finset_sum, lagrangeSum]
  refine Finset.sum_congr rfl (fun i _ => ?_)
  rw [Polynomial.eval_mul, Polynomial.eval_C, Lagrange.basis, Polynomial.eval_prod,
    mul_div_assoc]
  congr 1
  rw [div_eq_mul_inv, ← Finset.prod_inv_distrib, ← Finset.prod_mul_distrib]
  refine Finset.prod_congr rfl (fun j _ => ?_)
  simp [Lagrange.basisDivisor, mul_comm]

/-- Interpolating points with pairwise distinct abscissas on a polynomial of degree below
their number, with an integer value at `0`, returns that value. -/
theorem lagrangeInterpolation_on_polynomial (points : List Point) (p : Polynomial ℚ) (c : Int)
    (hx : points.Pairwise (fun a b => a.1 ≠ b.1))
    (hdeg : p.natDegree < points.length)
    (hon : ∀ pt ∈ points, p.eval (pt.1 : ℚ) = pt.2)
    (h0 : p.eval 0 = (c : ℚ)) :
    lagrangeInterpolation points = .ok c := by
  have hd : p.degree < points.length := by
    refine lt_of_le_of_lt Polynomial.degree_le_natDegree ?_
    exact_mod_cast hdeg
  exact lagrangeInterpolation_ok_of_sum points hx c
    ((lagrangeSum_eq_eval_zero points p hx hd hon).trans h0)

/-- Claim C1. For `k ≥ 1` points with pairwise distinct abscissas that all lie on one
rational polynomial `p` of degree at most `k - 1` whose value at `0` is the integer `c`,
`lagrangeInterpolation(points)` returns `c` and does not throw. -/
theorem lagrangeInterpolation_polynomial (points : List Point) (p : Polynomial ℚ) (c : Int)
    (hk : 1 ≤ points.length)
    (hx : points.Pairwise (fun a b => a.1 ≠ b.1))
    (hdeg : p.natDegree ≤ points.length - 1)
    (hon : ∀ pt ∈ points, p.eval (pt.1 : ℚ) = pt.2)
    (h0 : p.eval 0 = (c : ℚ)) :
    lagrangeInterpolation points = .ok c :=
  lagrangeInterpolation_on_polynomial points p c hx (by omega) hon h0

/-- Witness for C1: the points `(1,3)`, `(2,5)` on `y = 2x + 1` give `1`. -/
theorem lagrangeInterpolation_polynomial_witness :
    lagrangeInterpolation [(1, 3), (2, 5)] = .ok 1 :=
  lagrangeInterpolation_polynomial [(1, 3), (2, 5)]
    (Polynomial.C 2 * Polynomial.X + Polynomial.C 1) 1
    (by decide) (by decide)
    (by
      refine le_trans (Polynomial.natDegree_add_le _ _) ?_
      refine max_le ?_ (by simp)
      exact le_trans (Polynomial.natDegree_C_mul_le _ _) (by simp))
    (by
      intro pt hpt
      simp only [List.mem_cons, List.mem_singleton, List.not_mem_nil, or_false] at hpt
      rcases hpt with rfl | rfl <;> norm_num)
    (by simp)

/-- The specification's sum as a sum over the set of points, when no point repeats. -/
theorem lagrangeSum_eq_toFinset (points : List Point) (hnd : points.Nodup) :
    lagrangeSum points =
      ∑ a in points.toFinset,
        (a.2 : ℚ) * (∏ b in points.toFinset.erase a, ((0 : ℚ) - b.1)) /
          (∏ b in points.toFinset.erase a, ((a.1 : ℚ) - b.1)) := by
  have hinj : Function.Injective points.get := List.nodup_iff_injective_get.mp hnd
  have himg : (Finset.univ : Finset (Fin points.length)).image points.get = points.toFinset := by
    ext a
    simp [List.mem_iff_get]
  rw [← himg, Finset.sum_image (fun i _ j _ h => hinj h), lagrangeSum]
  refine Finset.sum_congr rfl (fun i _ => ?_)
  rw [← Finset.image_erase hinj, Finset.prod_image (fun i _ j _ h => hinj h),
    Finset.prod_image (fun i _ j _ h => hinj h)]

/-- Pairwise distinct abscissas: no point repeats. -/
theorem nodup_of_distinct_fst (points : List Point)
    (hx : points.Pairwise (fun a b => a.1 ≠ b.1)) : points.Nodup :=
  hx.imp (fun h e => h (congrArg Prod.fst e))

/-- Reordering keeps the abscissas pairwise distinct. -/
theorem distinct_fst_perm {points points' : List Point} (hp : points.Perm points')
    (hx : points.Pairwise (fun a b => a.1 ≠ b.1)) :
    points'.Pairwise (fun a b => a.1 ≠ b.1) :=
  (hp.pairwise_iff (fun h => Ne.symm h)).mp hx

/-- The specification's sum does not depend on the order of the points. -/
theorem lagrangeSum_perm {points points' : List Point} (hp : points.Perm points')
    (hx : points.Pairwise (fun a b => a.1 ≠ b.1)) :
    lagrangeSum points = lagrangeSum points' := by
  rw [lagrangeSum_eq_toFinset points (nodup_of_distinct_fst points hx),
    lagrangeSum_eq_toFinset points' (nodup_of_distinct_fst points' (distinct_fst_perm hp hx)),
    List.toFinset_eq_of_perm _ _ hp]

/-- Claim C9. For points with pairwise distinct abscissas, `lagrangeInterpolation` has the
same outcome on every reordering of the list: the same integer, or the same failure. -/
theorem lagrangeInterpolation_perm (points points' : List Point)
    (hx : points.Pairwise (fun a b => a.1 ≠ b.1)) (hp : points.Perm points') :
    lagrangeInterpolation points = lagrangeInterpolation points' := by
  have hx' := distinct_fst_perm hp hx
  have hs := lagrangeSum_perm hp hx
  rcases lagrangeInterpolation_cases points hx with ⟨v, hv, hr⟩ | ⟨hn, hr⟩
  · rw [hr, lagrangeInterpolation_ok_of_sum points' hx' v (hs ▸ hv)]
  · rw [hr, lagrangeInterpolation_error_of_sum points' hx' (fun v => hs ▸ hn v)]

/-- Witness for C9: three points of `y = x² + 1` in two orders. -/
theorem lagrangeInterpolation_perm_witness :
    [((1 : Int), (2 : Int)), (2, 5), (3, 10)].Pairwise (fun a b => a.1 ≠ b.1) ∧
    [((1 : Int), (2 : Int)), (2, 5), (3, 10)].Perm [(3, 10), (1, 2), (2, 5)] ∧
    lagrangeInterpolation [(1, 2), (2, 5), (3, 10)] =
      lagrangeInterpolation [(3, 10), (1, 2), (2, 5)] :=
  ⟨by decide, by decide,
    lagrangeInterpolation_perm [(1, 2), (2, 5), (3, 10)] [(3, 10), (1, 2), (2, 5)]
      (by decide) (by decide)⟩

/-! ## The tally and the vote -/

theorem yields_iff (v : Int) (c : List Point) :
    yields v c = true ↔ lagrangeInterpolation c = .ok v := by
  unfold yields
  cases h : lagrangeInterpolation c with
  | error e => simp
  | ok w => simp

theorem votes_append_ok (cs : List (List Point)) (c : List Point) (v w : Int)
    (hc : lagrangeInterpolation c = .ok v) :
    votes (cs ++ [c]) w = votes cs w + if w = v then 1 else 0 := by
  unfold votes
  rw [List.countP_append, List.countP_cons, List.countP_nil, Nat.zero_add]
  congr 1
  by_cases hw : w = v
  · simp [hw, yields_iff, hc]
  · have : ¬ yields w c = true := by
      rw [yields_iff, hc]
      intro h
      cases h
      exact hw rfl
    simp [hw, this]

theorem votes_append_error (cs : List (List Point)) (c : List Point) (e : JsError) (w : Int)
    (hc : lagrangeInterpolation c = .error e) :
    votes (cs ++ [c]) w = votes cs w := by
  unfold votes
  rw [List.countP_append, List.countP_cons, List.countP_nil, Nat.zero_add]
  have : ¬ yields w c = true := by
    rw [yields_iff, hc]
    intro h
    cases h
  simp [this]

theorem firstSeen_lt_of_pos (cs : List (List Point)) (a : Int) (h : 0 < votes cs a) :
    firstSeen cs a < cs.length :=
  List.findIdx_lt_length.mpr (List.countP_pos_iff.mp h)

theorem firstSeen_append_of_pos (cs l : List (List Point)) (a : Int) (h : 0 < votes cs a) :
    firstSeen (cs ++ l) a = firstSeen cs a := by
  have hlt := firstSeen_lt_of_pos cs a h
  unfold firstSeen at *
  rw [List.findIdx_append, if_pos hlt]

theorem firstSeen_append_new (cs : List (List Point)) (c : List Point) (v : Int)
    (h : votes cs v = 0) (hc : lagrangeInterpolation c = .ok v) :
    firstSeen (cs ++ [c]) v = cs.length := by
  unfold firstSeen
  have h1 : List.findIdx (yields v) cs = cs.length := by
    rw [List.findIdx_eq_length]
    intro x hx
    have := List.countP_eq_zero.mp h x hx
    simpa using this
  rw [List.findIdx_append, h1, if_neg (lt_irrefl _), List.findIdx_cons,
    (yields_iff v c).mpr hc]
  simp

theorem mapGet_eq_some (m : List (Int × Nat)) (v : Int) (n : Nat)
    (h : mapGet m v = some n) : (v, n) ∈ m := by
  unfold mapGet at h
  cases hf : m.find? (fun e => e.1 = v) with
  | none => simp [hf] at h
  | some e =>
    rw [hf] at h
    have h1 := List.find?_some hf
    have h2 := List.mem_of_find?_eq_some hf
    simp at h h1
    obtain ⟨a, b⟩ := e
    simp at h h1
    subst h h1
    exact h2

theorem mapGet_eq_none (m : List (Int × Nat)) (v : Int)
    (h : mapGet m v = none) : ∀ e ∈ m, e.1 ≠ v := by
  unfold mapGet at h
  simp at h
  intro e he
  exact h e.1 e.2 he

/-- The tally invariant is kept by one iteration of the tally loop. -/
theorem tallyInv_step (cs : List (List Point)) (c : List Point) (m : List (Int × Nat))
    (hm : TallyInv cs m) : TallyInv (cs ++ [c]) (tallyStep m c) := by
  obtain ⟨ha, hc⟩ := hm
  have hkeys : ∀ a ∈ m.map Prod.fst, 0 < votes cs a := by
    intro a hmem
    obtain ⟨e, he, rfl⟩ := List.mem_map.mp hmem
    have := (ha e.1 e.2).mp he
    omega
  have hold : (m.map Prod.fst).Pairwise
      (fun a b => firstSeen (cs ++ [c]) a < firstSeen (cs ++ [c]) b) := by
    refine List.Pairwise.imp_of_mem ?_ hc
    intro a b hma hmb hab
    rw [firstSeen_append_of_pos cs [c] a (hkeys a hma),
      firstSeen_append_of_pos cs [c] b (hkeys b hmb)]
    exact hab
  unfold tallyStep
  cases hres : lagrangeInterpolation c with
  | error e =>
    refine ⟨?_, hold⟩
    intro w n
    rw [votes_append_error cs c e w hres]
    exact ha w n
  | ok v =>
    simp only
    unfold mapSet
    cases hget : mapGet m v with
    | none =>
      have hnone := mapGet_eq_none m v hget
      have hv0 : votes cs v = 0 := by
        by_contra hne
        have hmem := (ha v (votes cs v)).mpr ⟨rfl, Nat.pos_of_ne_zero hne⟩
        exact hnone _ hmem rfl
      simp only [Option.isSome_none, Bool.false_eq_true, if_false, Option.getD_none, Nat.zero_add]
      constructor
      · intro w n
        rw [List.mem_append, List.mem_singleton, votes_append_ok cs c v w hres, ha w n]
        constructor
        · rintro (⟨h1, h2⟩ | h)
          · have hwv : w ≠ v := by
              rintro rfl
              omega
            simp [hwv, h1, h2]
            omega
          · cases h
            simp [hv0]
        · rintro ⟨h1, h2⟩
          by_cases hwv : w = v
          · subst hwv
            right
            simp [hv0] at h1
            rw [h1]
          · left
            simp [hwv] at h1
            exact ⟨h1, h2⟩
      · rw [List.map_append, List.pairwise_append]
        refine ⟨hold, by simp, ?_⟩
        intro a hma b hb
        simp only [List.map_cons, List.map_nil, List.mem_singleton] at hb
        subst hb
        rw [firstSeen_append_of_pos cs [c] a (hkeys a hma), firstSeen_append_new cs c b hv0 hres]
        exact firstSeen_lt_of_pos cs a (hkeys a hma)
    | some n0 =>
      have hmem := mapGet_eq_some m v n0 hget
      have hn0 := (ha v n0).mp hmem
      simp only [Option.isSome_some, if_true, Option.getD_some]
      constructor
      · intro w n
        rw [votes_append_ok cs c v w hres, List.mem_map]
        constructor
        · rintro ⟨e, he, hfe⟩
          by_cases hev : e.1 = v
          · rw [if_pos hev] at hfe
            cases hfe
            simp
            omega
          · rw [if_neg hev] at hfe
            subst hfe
            have := (ha w n).mp he
            simp at hev
            simp [hev]
            exact this
        · rintro ⟨h1, h2⟩
          by_cases hwv : w = v
          · subst hwv
            refine ⟨(w, n0), hmem, ?_⟩
            simp at h1
            simp [h1]
            omega
          · simp [hwv] at h1
            refine ⟨(w, n), (ha w n).mpr ⟨h1, h2⟩, ?_⟩
            simp [hwv]
      · have hfst : (m.map (fun e => if e.1 = v then (v, n0 + 1) else e)).map Prod.fst
            = m.map Prod.fst := by
          rw [List.map_map]
          apply List.map_congr_left
          intro e _
          by_cases hev : e.1 = v
          · simp [hev]
          · simp [hev]
        rw [hfst]
        exact hold

/-- The tally invariant holds after the tally loop. -/
theorem tallyInv_tally (cs : List (List Point)) : TallyInv cs (tally cs) := by
  induction cs using List.reverseRecOn with
  | nil =>
    refine ⟨?_, by simp [tally]⟩
    intro w n
    simp [tally, votes]
  | append_singleton cs c ih =>
    have := tallyInv_step cs c (tally cs) ih
    simpa [tally, List.foldl_append] using this

/-- The selection loop from any state: either no entry beats the initial count, or the
result is the first entry of the highest count. -/
theorem select_spec (m : List (Int × Nat)) :
    ∀ best : Nat × Option Int,
      (m.foldl selectStep best = best ∧ ∀ e ∈ m, e.2 ≤ best.1) ∨
      (∃ l1 e l2, m = l1 ++ e :: l2 ∧ m.foldl selectStep best = (e.2, some e.1) ∧
        best.1 < e.2 ∧ (∀ x ∈ l1, x.2 < e.2) ∧ (∀ x ∈ l2, x.2 ≤ e.2)) := by
  induction m with
  | nil =>
    intro best
    left
    simp
  | cons x m ih =>
    intro best
    rw [List.foldl_cons]
    by_cases hx : x.2 > best.1
    · have hstep : selectStep best x = (x.2, some x.1) := by simp [selectStep, hx]
      rw [hstep]
      right
      rcases ih (x.2, some x.1) with ⟨h1, h2⟩ | ⟨l1, e, l2, h1, h2, h3, h4, h5⟩
      · exact ⟨[], x, m, rfl, h1, hx, by simp, h2⟩
      · refine ⟨x :: l1, e, l2, by simp [h1], h2, lt_trans hx h3, ?_, h5⟩
        intro y hy
        rcases List.mem_cons.mp hy with rfl | hy
        · exact h3
        · exact h4 y hy
    · have hstep : selectStep best x = best := by simp [selectStep, hx]
      rw [hstep]
      rcases ih best with ⟨h1, h2⟩ | ⟨l1, e, l2, h1, h2, h3, h4, h5⟩
      · left
        refine ⟨h1, ?_⟩
        intro y hy
        rcases List.mem_cons.mp hy with rfl | hy
        · omega
        · exact h2 y hy
      · right
        refine ⟨x :: l1, e, l2, by simp [h1], h2, h3, ?_, h5⟩
        intro y hy
        rcases List.mem_cons.mp hy with rfl | hy
        · omega
        · exact h4 y hy

/-- The reconstruction is the selection loop run on the tally. -/
theorem findSecret_eq (points : List Point) (k : Nat) :
    findSecret points k =
      ((tally (generateCombinations points k)).foldl selectStep (0, none)).2 := rfl

/-- What the reconstruction returns, in terms of votes and first sightings. -/
theorem findSecret_cases (points : List Point) (k : Nat) :
    (findSecret points k = none ∧ ∀ v, votes (generateCombinations points k) v = 0) ∨
    (∃ r, findSecret points k = some r ∧ 0 < votes (generateCombinations points k) r ∧
      (∀ v, votes (generateCombinations points k) v ≤ votes (generateCombinations points k) r) ∧
      (∀ v, v ≠ r →
        votes (generateCombinations points k) v = votes (generateCombinations points k) r →
        firstSeen (generateCombinations points k) r <
          firstSeen (generateCombinations points k) v)) := by
  rw [findSecret_eq]
  obtain ⟨ha, hc⟩ := tallyInv_tally (generateCombinations points k)
  generalize tally (generateCombinations points k) = m at ha hc
  generalize generateCombinations points k = cs at ha hc
  rcases select_spec m (0, none) with ⟨h1, h2⟩ | ⟨l1, e, l2, h1, h2, h3, h4, h5⟩
  · left
    refine ⟨by rw [h1], ?_⟩
    intro v
    by_contra hne
    have hmem := (ha v (votes cs v)).mpr ⟨rfl, Nat.pos_of_ne_zero hne⟩
    have := h2 _ hmem
    simp at this
    exact hne this
  · right
    have hem : e ∈ m := by rw [h1]; simp
    have he := (ha e.1 e.2).mp hem
    have hle : ∀ v, votes cs v ≤ votes cs e.1 := by
      intro v
      by_cases hv : votes cs v = 0
      · omega
      · have hmem := (ha v (votes cs v)).mpr ⟨rfl, Nat.pos_of_ne_zero hv⟩
        rw [h1, List.mem_append, List.mem_cons] at hmem
        rcases hmem with h | h | h
        · have := h4 _ h
          simp at this
          omega
        · rw [← h]
        · have := h5 _ h
          simp at this
          omega
    refine ⟨e.1, by rw [h2], by omega, hle, ?_⟩
    intro v hv hvotes
    have hmem := (ha v (votes cs v)).mpr ⟨rfl, by omega⟩
    rw [h1, List.mem_append, List.mem_cons] at hmem
    rw [h1, List.map_append, List.map_cons, List.pairwise_append, List.pairwise_cons] at hc
    rcases hmem with h | h | h
    · have := h4 _ h
      simp at this
      omega
    · exfalso
      apply hv
      rw [← h]
    · exact hc.2.1.1 v (List.mem_map.mpr ⟨_, h, rfl⟩)

/-- No vote for `v`: no combination of the list yields `v`. -/
theorem votes_eq_zero_iff (cs : List (List Point)) (v : Int) :
    votes cs v = 0 ↔ ∀ c ∈ cs, lagrangeInterpolation c ≠ .ok v := by
  unfold votes
  rw [List.countP_eq_zero]
  constructor
  · intro h c hc hr
    exact h c hc ((yields_iff v c).mpr hr)
  · intro h c hc hy
    exact h c hc ((yields_iff v c).mp hy)

/-- When every combination of the list yields `v`, all the votes are for `v`. -/
theorem votes_of_all (cs : List (List Point)) (v : Int)
    (h : ∀ c ∈ cs, lagrangeInterpolation c = .ok v) :
    votes cs v = cs.length ∧ ∀ w, w ≠ v → votes cs w = 0 := by
  constructor
  · unfold votes
    rw [List.countP_eq_length]
    intro c hc
    exact (yields_iff v c).mpr (h c hc)
  · intro w hw
    rw [votes_eq_zero_iff]
    intro c hc hr
    rw [h c hc] at hr
    cases hr
    exact hw rfl

/-- Claim C4. The reconstruction returns `null` exactly when `lagrangeInterpolation` fails
on every combination produced by `generateCombinations(points, k)`, and returns a value
exactly when at least one combination yields an integer. -/
theorem findSecret_none_iff (points : List Point) (k : Nat) :
    (findSecret points k = none ↔
      ∀ c ∈ generateCombinations points k, ∃ e, lagrangeInterpolation c = .error e) ∧
    ((findSecret points k).isSome = true ↔
      ∃ c ∈ generateCombinations points k, ∃ v, lagrangeInterpolation c = .ok v) := by
  have key : findSecret points k = none ↔
      ∀ c ∈ generateCombinations points k, ∃ e, lagrangeInterpolation c = .error e := by
    rcases findSecret_cases points k with ⟨h1, h2⟩ | ⟨r, h1, h2, -, -⟩
    · refine ⟨fun _ c hc => ?_, fun _ => h1⟩
      cases hres : lagrangeInterpolation c with
      | error e => exact ⟨e, rfl⟩
      | ok v => exact absurd hres ((votes_eq_zero_iff _ v).mp (h2 v) c hc)
    · constructor
      · intro h
        rw [h1] at h
        cases h
      · intro h
        exfalso
        have hne : votes (generateCombinations points k) r ≠ 0 := by omega
        rw [Ne, votes_eq_zero_iff] at hne
        apply hne
        intro c hc hr
        obtain ⟨e, he⟩ := h c hc
        rw [he] at hr
        cases hr
  refine ⟨key, ?_⟩
  rw [← Option.ne_none_iff_isSome, Ne, key]
  constructor
  · intro h
    by_contra hcon
    apply h
    intro c hc
    cases hres : lagrangeInterpolation c with
    | error e => exact ⟨e, rfl⟩
    | ok v => exact absurd ⟨c, hc, v, hres⟩ hcon
  · rintro ⟨c, hc, v, hv⟩ h
    obtain ⟨e, he⟩ := h c hc
    rw [he] at hv
    cases hv

/-- Claim C5. When the reconstruction returns `r`, no value has more votes than `r`; and a
value with strictly more votes than every other value is the one returned. -/
theorem findSecret_most_votes (points : List Point) (k : Nat) (r : Int) :
    (findSecret points k = some r →
      ∀ v, votes (generateCombinations points k) v ≤ votes (generateCombinations points k) r) ∧
    ((∀ v, v ≠ r →
        votes (generateCombinations points k) v < votes (generateCombinations points k) r) →
      findSecret points k = some r) := by
  constructor
  · intro h v
    rcases findSecret_cases points k with ⟨h1, -⟩ | ⟨r', h1, -, h3, -⟩
    · rw [h1] at h
      cases h
    · rw [h1] at h
      cases h
      exact h3 v
  · intro h
    have hpos := h (r + 1) (by omega)
    rcases findSecret_cases points k with ⟨-, h2⟩ | ⟨r', h1, -, h3, -⟩
    · have := h2 r
      omega
    · by_cases hr : r' = r
      · rw [h1, hr]
      · have := h r' hr
        have := h3 r
        omega

/-- Claim C6. The reconstruction returns `r` exactly when `r` has at least one vote, no value
has more votes, and every other value `v` that shares that maximum count was first seen
later: the first combination that yields `r` comes before the first combination that
yields `v` in the list returned by `generateCombinations`.  So among several values that
share the maximum count the one first seen is the one returned. -/
theorem findSecret_tie_first (points : List Point) (k : Nat) (r : Int) :
    findSecret points k = some r ↔
      (0 < votes (generateCombinations points k) r ∧
       (∀ w, votes (generateCombinations points k) w ≤ votes (generateCombinations points k) r) ∧
       (∀ v, v ≠ r →
         votes (generateCombinations points k) v = votes (generateCombinations points k) r →
         firstSeen (generateCombinations points k) r <
           firstSeen (generateCombinations points k) v)) := by
  constructor
  · intro hr
    rcases findSecret_cases points k with ⟨h1, -⟩ | ⟨r', h1, h2, h3, h4⟩
    · rw [h1] at hr
      cases hr
    · rw [h1] at hr
      cases hr
      exact ⟨h2, h3, h4⟩
  · rintro ⟨hpos, hmax, hfirst⟩
    rcases findSecret_cases points k with ⟨-, h2⟩ | ⟨r', h1, -, h3, h4⟩
    · have := h2 r
      omega
    · by_cases hrr : r' = r
      · rw [h1, hrr]
      · exfalso
        have htie : votes (generateCombinations points k) r' =
            votes (generateCombinations points k) r :=
          le_antisymm (hmax r') (h3 r)
        have hlt1 := hfirst r' hrr htie
        have hlt2 := h4 r (fun e => hrr e.symm) htie.symm
        omega

/-- The polynomial `2x + 1` has degree at most one. -/
theorem natDegree_line : (Polynomial.C (2 : ℚ) * Polynomial.X + Polynomial.C 1).natDegree ≤ 1 := by
  refine le_trans (Polynomial.natDegree_add_le _ _) ?_
  refine max_le ?_ (by simp)
  exact le_trans (Polynomial.natDegree_C_mul_le _ _) (by simp)

/-- Claim C3. For `1 ≤ k ≤ n` and `n` points with pairwise distinct abscissas that all lie on
one rational polynomial `p` of degree at most `k - 1` with `p(0)` the integer `c`, the
reconstruction of `findSecret` on `(points, k)` returns `c`. -/
theorem findSecret_polynomial (points : List Point) (k : Nat) (p : Polynomial ℚ) (c : Int)
    (hk : 1 ≤ k) (hn : k ≤ points.length)
    (hx : points.Pairwise (fun a b => a.1 ≠ b.1))
    (hdeg : p.natDegree ≤ k - 1)
    (hon : ∀ pt ∈ points, p.eval (pt.1 : ℚ) = pt.2)
    (h0 : p.eval 0 = (c : ℚ)) :
    findSecret points k = some c := by
  have hall : ∀ cb ∈ generateCombinations points k, lagrangeInterpolation cb = .ok c := by
    intro cb hcb
    obtain ⟨hsub, hlen⟩ := (mem_generateCombinations points k cb).mp hcb
    exact lagrangeInterpolation_on_polynomial cb p c (List.Pairwise.sublist hsub hx)
      (by omega) (fun pt hpt => hon pt (hsub.subset hpt)) h0
  obtain ⟨hc, hother⟩ := votes_of_all _ c hall
  have hlen : 0 < (generateCombinations points k).length := by
    rw [generateCombinations_eq, List.length_reverse, List.length_sublistsLen]
    exact Nat.choose_pos hn
  rcases findSecret_cases points k with ⟨-, h2⟩ | ⟨r, h1, h2, -, -⟩
  · have := h2 c
    omega
  · by_cases hr : r = c
    · rw [h1, hr]
    · have := hother r hr
      omega

/-- Witness for C3: three points of `y = 2x + 1` with `k = 2` give the secret `1`. -/
theorem findSecret_polynomial_witness :
    findSecret [(1, 3), (2, 5), (3, 7)] 2 = some 1 :=
  findSecret_polynomial [(1, 3), (2, 5), (3, 7)] 2
    (Polynomial.C 2 * Polynomial.X + Polynomial.C 1) 1
    (by decide) (by decide) (by decide) natDegree_line
    (by
      intro pt hpt
      simp only [List.mem_cons, List.mem_singleton, List.not_mem_nil, or_false] at hpt
      rcases hpt with rfl | rfl | rfl <;> norm_num)
    (by simp)

/-! ## Concrete share sets -/

/-- The four combinations of the share set `(1,1994), (2,6), (3,1010), (4,1988)` for `k = 3`. -/
theorem combinations_four :
    generateCombinations [((1 : Int), (1994 : Int)), (2, 6), (3, 1010), (4, 1988)] 3 =
      [[(1, 1994), (2, 6), (3, 1010)], [(1, 1994), (2, 6), (4, 1988)],
       [(1, 1994), (3, 1010), (4, 1988)], [(2, 6), (3, 1010), (4, 1988)]] := by
  rw [generateCombinations_eq]
  rfl

theorem interpolation_123 : lagrangeInterpolation [(1, 1994), (2, 6), (3, 1010)] = .ok 6974 := by
  simp only [lagrangeInterpolation, lagrangeLoop, List.enum, List.enumFrom, List.foldlM_cons,
    List.foldlM_nil, lagrangeStep, gcdBigInt_abs]
  rfl

theorem interpolation_124 : lagrangeInterpolation [(1, 1994), (2, 6), (4, 1988)] = .ok 5968 := by
  simp only [lagrangeInterpolation, lagrangeLoop, List.enum, List.enumFrom, List.foldlM_cons,
    List.foldlM_nil, lagrangeStep, gcdBigInt_abs]
  rfl

theorem interpolation_134 : lagrangeInterpolation [(1, 1994), (3, 1010), (4, 1988)] = .ok 3956 := by
  simp only [lagrangeInterpolation, lagrangeLoop, List.enum, List.enumFrom, List.foldlM_cons,
    List.foldlM_nil, lagrangeStep, gcdBigInt_abs]
  rfl

theorem interpolation_234 : lagrangeInterpolation [(2, 6), (3, 1010), (4, 1988)] = .ok (-2080) := by
  simp only [lagrangeInterpolation, lagrangeLoop, List.enum, List.enumFrom, List.foldlM_cons,
    List.foldlM_nil, lagrangeStep, gcdBigInt_abs]
  rfl

/-- The votes on the four-share set: one for each of the four values, none for any other. -/
theorem votes_four (v : Int) :
    votes (generateCombinations [((1 : Int), (1994 : Int)), (2, 6), (3, 1010), (4, 1988)] 3) v =
      (if 6974 = v then 1 else 0) + (if 5968 = v then 1 else 0) +
        (if 3956 = v then 1 else 0) + (if -2080 = v then 1 else 0) := by
  rw [combinations_four]
  simp only [votes, List.countP_cons, List.countP_nil, yields, interpolation_123,
    interpolation_124, interpolation_134, interpolation_234, decide_eq_true_eq]
  omega

/-- The reconstruction on the four-share set returns the value seen first. -/
theorem findSecret_four :
    findSecret [(1, 1994), (2, 6), (3, 1010), (4, 1988)] 3 = some 6974 := by
  unfold findSecret
  rw [combinations_four]
  simp only [List.foldl_cons, List.foldl_nil, tallyStep, interpolation_123, interpolation_124,
    interpolation_134, interpolation_234]
  rfl

/-- Claim C10 as stated, refuted: on the share set `(1,1994), (2,6), (3,1010), (4,1988)` with
`k = 3` it is not the case that there are 4 combinations, some integer is produced by at
least two of the interpolations, and the reconstruction returns that integer. -/
theorem findSecret_four_no_shared_value :
    ¬ ((generateCombinations [((1 : Int), (1994 : Int)), (2, 6), (3, 1010), (4, 1988)] 3).length = 4 ∧
        ∃ v, 2 ≤ votes (generateCombinations [(1, 1994), (2, 6), (3, 1010), (4, 1988)] 3) v ∧
          findSecret [(1, 1994), (2, 6), (3, 1010), (4, 1988)] 3 = some v) := by
  rintro ⟨-, v, hv, -⟩
  rw [votes_four] at hv
  split_ifs at hv <;> omega

/-- Claim C10, amended: on the share set `(1,1994), (2,6), (3,1010), (4,1988)` with `k = 3`,
`generateCombinations` yields 4 combinations, the four interpolations succeed with the
pairwise different integers `6974`, `5968`, `3956`, `-2080`, and the reconstruction
returns the first of them, `6974`. -/
theorem findSecret_four_distinct_values :
    (generateCombinations [((1 : Int), (1994 : Int)), (2, 6), (3, 1010), (4, 1988)] 3).length = 4 ∧
    (generateCombinations [(1, 1994), (2, 6), (3, 1010), (4, 1988)] 3).map lagrangeInterpolation =
      [.ok 6974, .ok 5968, .ok 3956, .ok (-2080)] ∧
    findSecret [(1, 1994), (2, 6), (3, 1010), (4, 1988)] 3 = some 6974 := by
  refine ⟨?_, ?_, findSecret_four⟩
  · rw [combinations_four]
    rfl
  · rw [combinations_four]
    simp only [List.map_cons, List.map_nil, interpolation_123, interpolation_124,
      interpolation_134, interpolation_234]

/-- The first sightings on the four-share set: `6974` at the first combination, every
other value later. -/
theorem firstSeen_four (v : Int) :
    firstSeen (generateCombinations [((1 : Int), (1994 : Int)), (2, 6), (3, 1010), (4, 1988)] 3)
        6974 = 0 ∧
    (v ≠ 6974 → 0 <
      firstSeen (generateCombinations [((1 : Int), (1994 : Int)), (2, 6), (3, 1010), (4, 1988)] 3)
        v) := by
  rw [combinations_four]
  constructor
  · simp only [firstSeen, List.findIdx_cons, yields, interpolation_123]
    rfl
  · intro hv
    have hne : ¬ (6974 : Int) = v := fun e => hv e.symm
    simp only [firstSeen, List.findIdx_cons, yields, interpolation_123, hne, decide_False,
      cond_false]
    omega

/-- Witness for C6: on the four-share set all four values tie with one vote each, `6974`
is the one seen first, and so `6974` is what the reconstruction returns. -/
theorem findSecret_tie_first_witness :
    findSecret [(1, 1994), (2, 6), (3, 1010), (4, 1988)] 3 = some 6974 :=
  (findSecret_tie_first [(1, 1994), (2, 6), (3, 1010), (4, 1988)] 3 6974).mpr
    ⟨by rw [votes_four]; decide,
     by
      intro w
      rw [votes_four, votes_four]
      split_ifs <;> omega,
     by
      intro v hv _
      rw [(firstSeen_four v).1]
      exact (firstSeen_four v).2 hv⟩

/-- Every pair of the three points `(1,3), (2,5), (3,7)` of `y = 2x + 1` interpolates to `1`. -/
theorem interpolation_line_pairs :
    ∀ c ∈ generateCombinations [((1 : Int), (3 : Int)), (2, 5), (3, 7)] 2,
      lagrangeInterpolation c = .ok 1 := by
  have hg : generateCombinations [((1 : Int), (3 : Int)), (2, 5), (3, 7)] 2 =
      [[(1, 3), (2, 5)], [(1, 3), (3, 7)], [(2, 5), (3, 7)]] := by
    rw [generateCombinations_eq]
    rfl
  rw [hg]
  intro c hc
  simp only [List.mem_cons, List.mem_singleton, List.not_mem_nil, or_false] at hc
  rcases hc with rfl | rfl | rfl <;>
  · simp only [lagrangeInterpolation, lagrangeLoop, List.enum, List.enumFrom, List.foldlM_cons,
      List.foldlM_nil, lagrangeStep, gcdBigInt_abs]
    rfl

/-- Witness for C5: on three points of `y = 2x + 1` with `k = 2` all three votes go to `1`,
which is returned. -/
theorem findSecret_most_votes_witness :
    findSecret [(1, 3), (2, 5), (3, 7)] 2 = some 1 ∧
    ∀ v, votes (generateCombinations [(1, 3), (2, 5), (3, 7)] 2) v ≤
      votes (generateCombinations [(1, 3), (2, 5), (3, 7)] 2) 1 :=
  have hsome : findSecret [(1, 3), (2, 5), (3, 7)] 2 = some 1 :=
    (findSecret_most_votes [(1, 3), (2, 5), (3, 7)] 2 1).2 (by
      intro v hv
      obtain ⟨h1, h2⟩ := votes_of_all _ 1 interpolation_line_pairs
      rw [h1, h2 v hv, generateCombinations_eq]
      decide)
  ⟨hsome, (findSecret_most_votes [(1, 3), (2, 5), (3, 7)] 2 1).1 hsome⟩

/-! ## Single shares, the empty combination, and `gcdBigInt` -/

/-- The interpolation of a single share returns its value. -/
theorem lagrangeInterpolation_singleton (x y : Int) :
    lagrangeInterpolation [(x, y)] = .ok y := by
  apply lagrangeInterpolation_ok_of_sum
  · simp
  · simp [lagrangeSum]

/-- Claim C11. For every single point `(x, y)`, also with `x = 0`,
`lagrangeInterpolation([(x, y)])` returns `y`, and for `n = k = 1` the reconstruction of
`findSecret` returns that `y`. -/
theorem findSecret_single_share (x y : Int) :
    lagrangeInterpolation [(x, y)] = .ok y ∧
    lagrangeInterpolation [(0, y)] = .ok y ∧
    findSecret [(x, y)] 1 = some y := by
  refine ⟨lagrangeInterpolation_singleton x y, lagrangeInterpolation_singleton 0 y, ?_⟩
  have hg : generateCombinations [(x, y)] 1 = [[(x, y)]] := by
    rw [generateCombinations_eq]
    rfl
  unfold findSecret
  rw [hg]
  simp only [List.foldl_cons, List.foldl_nil, tallyStep, lagrangeInterpolation_singleton]
  rfl

/-- The interpolation of no point at all returns `0`. -/
theorem lagrangeInterpolation_nil : lagrangeInterpolation [] = .ok 0 := by
  rfl

/-- Claim C20. For `k = 0` and every list of points, `generateCombinations` returns exactly
one empty combination, `lagrangeInterpolation` of the empty list returns `0`, and the
reconstruction of `findSecret` returns the secret `0`. -/
theorem findSecret_zero_threshold (points : List Point) :
    generateCombinations points 0 = [[]] ∧
    lagrangeInterpolation [] = .ok 0 ∧
    findSecret points 0 = some 0 := by
  have hg : generateCombinations points 0 = [[]] := by
    rw [generateCombinations_eq, List.sublistsLen_zero]
    rfl
  refine ⟨hg, lagrangeInterpolation_nil, ?_⟩
  unfold findSecret
  rw [hg]
  simp only [List.foldl_cons, List.foldl_nil, tallyStep, lagrangeInterpolation_nil]
  rfl

/-- Claim C17. For non-negative `a` and `b`, `gcdBigInt(a, b)` (a total function: the loop
terminates) is the greatest common divisor: it is non-negative, divides both, and every
common divisor divides it; moreover `gcdBigInt(0, a) = a` and `gcdBigInt(a, 0) = a`. -/
theorem gcdBigInt_greatest (a b : Int) (ha : 0 ≤ a) (hb : 0 ≤ b) :
    0 ≤ gcdBigInt a b ∧ gcdBigInt a b ∣ a ∧ gcdBigInt a b ∣ b ∧
    (∀ c : Int, c ∣ a → c ∣ b → c ∣ gcdBigInt a b) ∧
    gcdBigInt 0 a = a ∧ gcdBigInt a 0 = a := by
  obtain ⟨m, rfl⟩ := Int.eq_ofNat_of_zero_le ha
  obtain ⟨n, rfl⟩ := Int.eq_ofNat_of_zero_le hb
  have h0 : gcdBigInt (0 : Nat) (m : Nat) = (Nat.gcd 0 m : Int) := gcdBigInt_natCast m 0
  have h1 : gcdBigInt (m : Nat) (0 : Nat) = (Nat.gcd m 0 : Int) := gcdBigInt_natCast 0 m
  rw [gcdBigInt_natCast]
  refine ⟨Int.ofNat_nonneg _, ?_, ?_, ?_, ?_, ?_⟩
  · exact Int.natCast_dvd_natCast.mpr (Nat.gcd_dvd_left m n)
  · exact Int.natCast_dvd_natCast.mpr (Nat.gcd_dvd_right m n)
  · intro c hca hcb
    have := Int.dvd_gcd hca hcb
    simpa [Int.gcd] using this
  · simpa using h0
  · simpa using h1

/-- Witness for C17 on `12` and `18`. -/
theorem gcdBigInt_greatest_witness :
    (0 : Int) ≤ 12 ∧ (0 : Int) ≤ 18 ∧
    0 ≤ gcdBigInt 12 18 ∧ gcdBigInt 12 18 ∣ 12 ∧ gcdBigInt 12 18 ∣ 18 ∧
    (∀ c : Int, c ∣ 12 → c ∣ 18 → c ∣ gcdBigInt 12 18) ∧
    gcdBigInt 0 12 = 12 ∧ gcdBigInt 12 0 = 12 :=
  ⟨by decide, by decide, gcdBigInt_greatest 12 18 (by decide) (by decide)⟩

/-! ## The running fraction, iteration by iteration -/

/-- The body of the outer loop divides both parts of the new fraction by `stepGcd`. -/
theorem lagrangeStep_eq_stepGcd (points : List Point) (total : Int × Int) (e : Nat × Point) :
    lagrangeStep points total e =
      (do
        let totalNumerator ← bigDiv (total.1 * (basisFraction points e.1 e.2.1).2 +
          e.2.2 * (basisFraction points e.1 e.2.1).1 * total.2) (stepGcd points total e)
        let totalDenominator ← bigDiv (total.2 * (basisFraction points e.1 e.2.1).2)
          (stepGcd points total e)
        pure (totalNumerator, totalDenominator)) := rfl

/-- The divisor of line 74 is non-zero when the new denominator is. -/
theorem stepGcd_ne_zero (points : List Point) (total : Int × Int) (e : Nat × Point)
    (ht : total.2 ≠ 0) (he : (basisFraction points e.1 e.2.1).2 ≠ 0) :
    stepGcd points total e ≠ 0 := by
  rw [stepGcd, gcdBigInt_abs]
  intro h
  have h0 : Int.gcd (total.1 * (basisFraction points e.1 e.2.1).2 +
      e.2.2 * (basisFraction points e.1 e.2.1).1 * total.2)
      (total.2 * (basisFraction points e.1 e.2.1).2) = 0 := by exact_mod_cast h
  exact mul_ne_zero ht he (Int.gcd_eq_zero_iff.mp h0).2

/-- Every indexed point of the array has a non-zero `denominator` when the abscissas are
pairwise distinct. -/
theorem denominators_ne_zero (points : List Point)
    (hx : points.Pairwise (fun p q => p.1 ≠ q.1)) :
    ∀ e ∈ points.enum, (basisFraction points e.1 e.2.1).2 ≠ 0 := by
  intro e he
  rw [enum_eq_map_finRange, List.mem_map] at he
  obtain ⟨i, -, rfl⟩ := he
  exact basisFraction_snd_ne_zero points hx i

/-- The outer loop over indexed points with non-zero `denominator`s, from a fraction in
lowest terms with non-zero denominator: it does not throw and ends on such a fraction. -/
theorem lagrangeFold_lowest (points : List Point) (l : List (Nat × Point))
    (hl : ∀ e ∈ l, (basisFraction points e.1 e.2.1).2 ≠ 0) :
    ∀ total : Int × Int, total.2 ≠ 0 → Int.gcd total.1 total.2 = 1 →
      ∃ n d : Int, l.foldlM (lagrangeStep points) total = .ok (n, d) ∧ d ≠ 0 ∧
        Int.gcd n d = 1 := by
  induction l with
  | nil =>
    intro total ht hg
    exact ⟨total.1, total.2, rfl, ht, hg⟩
  | cons e l ih =>
    intro total ht _
    obtain ⟨n, d, h1, hd, -, hg⟩ := lagrangeStep_spec points total e ht
      (hl e (List.mem_cons_self _ _))
    obtain ⟨n', d', h2, hd', hg'⟩ := ih (fun x hx => hl x (List.mem_cons_of_mem _ hx)) (n, d) hd hg
    refine ⟨n', d', ?_, hd', hg'⟩
    rw [List.foldlM_cons, h1]
    exact h2

/-- The running fraction after any number of iterations, under pairwise distinct
abscissas: the loop has not thrown, the denominator is non-zero, the terms are lowest. -/
theorem lagrangeLoopAfter_spec (points : List Point)
    (hx : points.Pairwise (fun p q => p.1 ≠ q.1)) (m : Nat) :
    ∃ n d : Int, lagrangeLoopAfter points m = .ok (n, d) ∧ d ≠ 0 ∧ Int.gcd n d = 1 := by
  have hl : ∀ e ∈ points.enum.take m, (basisFraction points e.1 e.2.1).2 ≠ 0 :=
    fun e he => denominators_ne_zero points hx e (List.mem_of_mem_take he)
  exact lagrangeFold_lowest points _ hl (0, 1) one_ne_zero (by simp)

/-- After all the iterations the running fraction is the result of the loop. -/
theorem lagrangeLoopAfter_length (points : List Point) :
    lagrangeLoopAfter points points.length = lagrangeLoop points := by
  unfold lagrangeLoopAfter lagrangeLoop
  rw [List.take_of_length_le (by simp)]

/-- The running fraction after one more iteration is the body of the loop run on the
running fraction and the next indexed point. -/
theorem lagrangeLoopAfter_succ (points : List Point) (i : Fin points.length) :
    lagrangeLoopAfter points (i.1 + 1) =
      (lagrangeLoopAfter points i.1).bind
        (fun total => lagrangeStep points total (i.1, points.get i)) := by
  have hlen : i.1 < points.enum.length := by simp
  have htake : points.enum.take (i.1 + 1) = points.enum.take i.1 ++ [(i.1, points.get i)] := by
    rw [List.take_succ, List.getElem?_eq_getElem hlen]
    simp
  unfold lagrangeLoopAfter
  rw [htake, List.foldlM_append]
  cases h : List.foldlM (lagrangeStep points) (0, 1) (List.take i.1 points.enum) with
  | error e => rfl
  | ok total =>
    simp only [List.foldlM_cons, List.foldlM_nil, bind, Except.bind]
    cases lagrangeStep points total (i.1, points.get i) <;> rfl

/-- Claim C12. With pairwise distinct abscissas `lagrangeInterpolation` never divides by
zero: on entry to every iteration the running denominator is non-zero, the `denominator`
product of the point is non-zero and the `gcd` of line 74 is non-zero; the loop ends on a
non-zero denominator, the divisor of lines 79-83; and no division-by-zero error results. -/
theorem lagrangeInterpolation_no_zero_divisor (points : List Point)
    (hx : points.Pairwise (fun p q => p.1 ≠ q.1)) :
    (∀ i : Fin points.length, ∃ n d : Int,
      lagrangeLoopAfter points i.1 = .ok (n, d) ∧ d ≠ 0 ∧
      (basisFraction points i.1 (points.get i).1).2 ≠ 0 ∧
      stepGcd points (n, d) (i.1, points.get i) ≠ 0) ∧
    (∃ n d : Int, lagrangeLoop points = .ok (n, d) ∧ d ≠ 0) ∧
    lagrangeInterpolation points ≠ .error .divisionByZero := by
  refine ⟨?_, ?_, ?_⟩
  · intro i
    obtain ⟨n, d, h1, hd, -⟩ := lagrangeLoopAfter_spec points hx i.1
    have hden := basisFraction_snd_ne_zero points hx i
    exact ⟨n, d, h1, hd, hden, stepGcd_ne_zero points (n, d) (i.1, points.get i) hd hden⟩
  · obtain ⟨n, d, h1, hd, -⟩ := lagrangeLoop_spec points hx
    exact ⟨n, d, h1, hd⟩
  · rcases lagrangeInterpolation_cases points hx with ⟨v, -, hr⟩ | ⟨-, hr⟩ <;>
    · rw [hr]
      intro h
      cases h

/-- Witness for C12 on the two points of the line `y = 2x + 1`. -/
theorem lagrangeInterpolation_no_zero_divisor_witness :
    (∀ i : Fin [((1 : Int), (3 : Int)), (2, 5)].length, ∃ n d : Int,
      lagrangeLoopAfter [(1, 3), (2, 5)] i.1 = .ok (n, d) ∧ d ≠ 0 ∧
      (basisFraction [(1, 3), (2, 5)] i.1 ([((1 : Int), (3 : Int)), (2, 5)].get i).1).2 ≠ 0 ∧
      stepGcd [(1, 3), (2, 5)] (n, d) (i.1, [((1 : Int), (3 : Int)), (2, 5)].get i) ≠ 0) ∧
    (∃ n d : Int, lagrangeLoop [(1, 3), (2, 5)] = .ok (n, d) ∧ d ≠ 0) ∧
    lagrangeInterpolation [(1, 3), (2, 5)] ≠ .error .divisionByZero :=
  lagrangeInterpolation_no_zero_divisor [(1, 3), (2, 5)] (by decide)

/-- Claim C15. With pairwise distinct abscissas, the running fraction is in lowest terms
initially and after every iteration of the outer loop: the greatest common divisor of the
absolute values of `totalNumerator` and `totalDenominator` is `1`, so that a zero
numerator comes with a denominator of absolute value `1`. -/
theorem lagrangeLoop_lowest_terms (points : List Point)
    (hx : points.Pairwise (fun p q => p.1 ≠ q.1)) (m : Nat) :
    ∃ n d : Int, lagrangeLoopAfter points m = .ok (n, d) ∧
      Nat.gcd n.natAbs d.natAbs = 1 ∧ (n = 0 → d.natAbs = 1) := by
  obtain ⟨n, d, h1, -, hg⟩ := lagrangeLoopAfter_spec points hx m
  refine ⟨n, d, h1, hg, ?_⟩
  rintro rfl
  simpa [Int.gcd] using hg

/-- Witness for C15 after the first iteration on the two points of `y = 2x + 1`. -/
theorem lagrangeLoop_lowest_terms_witness :
    ∃ n d : Int, lagrangeLoopAfter [(1, 3), (2, 5)] 1 = .ok (n, d) ∧
      Nat.gcd n.natAbs d.natAbs = 1 ∧ (n = 0 → d.natAbs = 1) :=
  lagrangeLoop_lowest_terms [(1, 3), (2, 5)] (by decide) 1

/-- The running fraction after the first iteration on `(1,3), (2,5)`. -/
theorem lagrangeLoopAfter_line_one :
    lagrangeLoopAfter [(1, 3), (2, 5)] 1 = .ok (-6, -1) := by
  simp only [lagrangeLoopAfter, List.enum, List.enumFrom, List.take, List.foldlM_cons,
    List.foldlM_nil, lagrangeStep, gcdBigInt_abs]
  rfl

/-- Claim C16 as stated, refuted: on the points `(1,3), (2,5)`, whose abscissas are distinct,
the running fraction after the first iteration is `(-6, -1)`, so its denominator is not
strictly positive. -/
theorem lagrangeLoop_negative_denominator :
    [((1 : Int), (3 : Int)), (2, 5)].Pairwise (fun p q => p.1 ≠ q.1) ∧
    ¬ (∀ m, ∃ n d : Int, lagrangeLoopAfter [(1, 3), (2, 5)] m = .ok (n, d) ∧ 0 < d) := by
  refine ⟨by decide, ?_⟩
  intro h
  obtain ⟨n, d, h1, hd⟩ := h 1
  rw [lagrangeLoopAfter_line_one] at h1
  cases h1
  omega

/-- Claim C16, amended: with pairwise distinct abscissas the running fraction has a non-zero
denominator initially and after every iteration of the outer loop. -/
theorem lagrangeLoop_denominator_ne_zero (points : List Point)
    (hx : points.Pairwise (fun p q => p.1 ≠ q.1)) (m : Nat) :
    ∃ n d : Int, lagrangeLoopAfter points m = .ok (n, d) ∧ d ≠ 0 := by
  obtain ⟨n, d, h1, hd, -⟩ := lagrangeLoopAfter_spec points hx m
  exact ⟨n, d, h1, hd⟩

/-- Witness for the amended C16 after both iterations on the points `(1,3), (2,5)`. -/
theorem lagrangeLoop_denominator_ne_zero_witness :
    ∃ n d : Int, lagrangeLoopAfter [(1, 3), (2, 5)] 2 = .ok (n, d) ∧ d ≠ 0 :=
  lagrangeLoop_denominator_ne_zero [(1, 3), (2, 5)] (by decide) 2

/-! ## Repeated abscissas -/

/-- One iteration of the outer loop either throws a division by zero or succeeds; when the
new denominator is zero, a success leaves a zero denominator. -/
theorem lagrangeStep_outcome (points : List Point) (total : Int × Int) (e : Nat × Point) :
    lagrangeStep points total e = .error .divisionByZero ∨
    ∃ n d : Int, lagrangeStep points total e = .ok (n, d) ∧
      (total.2 * (basisFraction points e.1 e.2.1).2 = 0 → d = 0) := by
  rw [lagrangeStep_eq_stepGcd]
  by_cases hg : stepGcd points total e = 0
  · left
    simp [bigDiv, hg, bind, Except.bind]
  · right
    refine ⟨_, _, by simp only [bigDiv, if_neg hg, bind, Except.bind]; rfl, ?_⟩
    intro h0
    rw [h0]
    simp

/-- The outer loop from a zero denominator, or over a point with a zero `denominator`:
it throws a division by zero or ends on a zero denominator. -/
theorem lagrangeFold_zero (points : List Point) (l : List (Nat × Point)) :
    ∀ total : Int × Int,
      (total.2 = 0 ∨ ∃ e ∈ l, (basisFraction points e.1 e.2.1).2 = 0) →
      l.foldlM (lagrangeStep points) total = .error .divisionByZero ∨
      ∃ n : Int, l.foldlM (lagrangeStep points) total = .ok (n, 0) := by
  induction l with
  | nil =>
    intro total h
    right
    rcases h with h | ⟨e, he, -⟩
    · refine ⟨total.1, ?_⟩
      rw [List.foldlM_nil, ← h]
      rfl
    · cases he
  | cons x l ih =>
    intro total h
    rw [List.foldlM_cons]
    rcases lagrangeStep_outcome points total x with hs | ⟨n, d, hs, hz⟩
    · left
      rw [hs]
      rfl
    · rw [hs]
      apply ih (n, d)
      rcases h with h | ⟨e, he, hden⟩
      · left
        exact hz (by rw [h, zero_mul])
      · rcases List.mem_cons.mp he with rfl | he
        · left
          exact hz (by rw [hden, mul_zero])
        · right
          exact ⟨e, he, hden⟩

/-- A point whose abscissa occurs at another position has a zero `denominator`. -/
theorem basisFraction_snd_eq_zero (points : List Point) (i j : Fin points.length)
    (hij : i ≠ j) (hxx : (points.get i).1 = (points.get j).1) :
    (basisFraction points i.1 (points.get i).1).2 = 0 := by
  rw [basisFraction_eq]
  simp only
  apply Finset.prod_eq_zero (Finset.mem_erase.mpr ⟨hij.symm, Finset.mem_univ j⟩)
  rw [hxx, sub_self]

/-- Interpolating a list in which two positions share an abscissa throws a division by zero. -/
theorem lagrangeInterpolation_repeated (points : List Point) (i j : Fin points.length)
    (hij : i ≠ j) (hxx : (points.get i).1 = (points.get j).1) :
    lagrangeInterpolation points = .error .divisionByZero := by
  have hmem : (i.1, points.get i) ∈ points.enum := by
    rw [enum_eq_map_finRange]
    exact List.mem_map.mpr ⟨i, List.mem_finRange i, rfl⟩
  have hz := lagrangeFold_zero points points.enum (0, 1)
    (Or.inr ⟨_, hmem, basisFraction_snd_eq_zero points i j hij hxx⟩)
  unfold lagrangeInterpolation lagrangeLoop
  rcases hz with h | ⟨n, h⟩
  · rw [h]
    rfl
  · rw [h]
    rfl

/-- Claim C18. When two positions of the list share the same abscissa,
`lagrangeInterpolation` returns no number: it fails with a division by zero, and as a
combination in `findSecret` the list leaves the tally unchanged (it has no vote). -/
theorem lagrangeInterpolation_duplicate_fails (points : List Point) (i j : Fin points.length)
    (hij : i ≠ j) (hxx : (points.get i).1 = (points.get j).1) :
    lagrangeInterpolation points = .error .divisionByZero ∧
    (∀ v : Int, lagrangeInterpolation points ≠ .ok v) ∧
    (∀ constantTermCounts, tallyStep constantTermCounts points = constantTermCounts) ∧
    (∀ v : Int, yields v points = false) := by
  have h := lagrangeInterpolation_repeated points i j hij hxx
  refine ⟨h, ?_, ?_, ?_⟩
  · intro v hv
    rw [h] at hv
    cases hv
  · intro m
    simp only [tallyStep, h]
  · intro v
    simp only [yields, h]

/-- Witness for C18 on two shares with the abscissa `1`. -/
theorem lagrangeInterpolation_duplicate_fails_witness :
    lagrangeInterpolation [(1, 3), (1, 5)] = .error .divisionByZero ∧
    (∀ v : Int, lagrangeInterpolation [(1, 3), (1, 5)] ≠ .ok v) ∧
    (∀ constantTermCounts,
      tallyStep constantTermCounts [(1, 3), (1, 5)] = constantTermCounts) ∧
    (∀ v : Int, yields v [(1, 3), (1, 5)] = false) :=
  lagrangeInterpolation_duplicate_fails [(1, 3), (1, 5)] ⟨0, by decide⟩ ⟨1, by decide⟩
    (by decide) (by decide)

/-! ## The order of the enumeration -/

/-- The enumeration with nothing left to choose. -/
theorem generateCombinations_zero {α : Type} (arr : List α) :
    generateCombinations arr 0 = [[]] := by
  rw [generateCombinations_eq, List.sublistsLen_zero]
  rfl

/-- The enumeration on the empty array with something left to choose. -/
theorem generateCombinations_nil_succ {α : Type} (k : Nat) :
    generateCombinations ([] : List α) (k + 1) = [] := by
  rw [generateCombinations_eq, List.sublistsLen_succ_nil]
  rfl

/-- The enumeration on an array with a first element: first the combinations that take it,
then those that do not. -/
theorem generateCombinations_cons_succ {α : Type} (a : α) (arr : List α) (k : Nat) :
    generateCombinations (a :: arr) (k + 1) =
      (generateCombinations arr k).map (List.cons a) ++ generateCombinations arr (k + 1) := by
  rw [generateCombinations_eq, generateCombinations_eq, generateCombinations_eq,
    reverse_sublistsLen_succ_cons]

/-- The first combination emitted is the first `k` elements of the array. -/
theorem head_generateCombinations {α : Type} (arr : List α) :
    ∀ k, (generateCombinations arr k).head? =
      if k ≤ arr.length then some (arr.take k) else none := by
  induction arr with
  | nil =>
    intro k
    cases k with
    | zero => simp [generateCombinations_zero]
    | succ k => simp [generateCombinations_nil_succ]
  | cons a arr ih =>
    intro k
    cases k with
    | zero => simp [generateCombinations_zero]
    | succ k =>
      rw [generateCombinations_cons_succ, List.head?_append, List.head?_map, ih k, ih (k + 1)]
      by_cases h1 : k ≤ arr.length
      · simp [h1]
      · have h2 : ¬ k + 1 ≤ arr.length := by omega
        simp [h1, h2]

/-- The last combination emitted is the last `k` elements of the array. -/
theorem getLast_generateCombinations {α : Type} (arr : List α) :
    ∀ k, (generateCombinations arr k).getLast? =
      if k ≤ arr.length then some (arr.drop (arr.length - k)) else none := by
  induction arr with
  | nil =>
    intro k
    cases k with
    | zero => simp [generateCombinations_zero]
    | succ k => simp [generateCombinations_nil_succ]
  | cons a arr ih =>
    intro k
    cases k with
    | zero => simp [generateCombinations_zero]
    | succ k =>
      rw [generateCombinations_cons_succ, List.getLast?_append, List.getLast?_map, ih k,
        ih (k + 1)]
      by_cases h2 : k + 1 ≤ arr.length
      · have h3 : arr.length + 1 - (k + 1) = (arr.length - (k + 1)) + 1 := by omega
        have h1 : k ≤ arr.length := by omega
        simp [h1, h2, h3]
      · by_cases h1 : k ≤ arr.length
        · have h3 : k = arr.length := by omega
          subst h3
          simp
        · simp [h1, h2]

/-- On a strictly increasing array the combinations come in strictly increasing
lexicographic order. -/
theorem generateCombinations_lex_of_sorted {α : Type} (r : α → α → Prop) (arr : List α) :
    arr.Pairwise r → ∀ k, (generateCombinations arr k).Pairwise (List.Lex r) := by
  induction arr with
  | nil =>
    intro _ k
    cases k with
    | zero => simp [generateCombinations_zero]
    | succ k => simp [generateCombinations_nil_succ]
  | cons a arr ih =>
    intro hs k
    rw [List.pairwise_cons] at hs
    cases k with
    | zero => simp [generateCombinations_zero]
    | succ k =>
      rw [generateCombinations_cons_succ, List.pairwise_append]
      refine ⟨?_, ih hs.2 (k + 1), ?_⟩
      · exact List.Pairwise.map _ (fun _ _ h => List.Lex.cons h) (ih hs.2 k)
      · intro x hx y hy
        obtain ⟨t, -, rfl⟩ := List.mem_map.mp hx
        obtain ⟨hsub, hlen⟩ := (mem_generateCombinations arr (k + 1) y).mp hy
        cases y with
        | nil => simp at hlen
        | cons b y =>
          exact List.Lex.rel (hs.1 b (hsub.subset (List.mem_cons_self _ _)))

/-- Claim C19. For every array and every `k`, `generateCombinations(arr, k)` emits its
combinations in strictly increasing lexicographic order of their index tuples; the first
is `arr[0..k-1]` and the last is the final `k` elements of `arr` (there is a first and a
last exactly when `k ≤ n`). -/
theorem generateCombinations_lex_order {α : Type} (arr : List α) (k : Nat) :
    generateCombinations arr k =
      (generateCombinations (List.finRange arr.length) k).map (fun t => t.map arr.get) ∧
    (generateCombinations (List.finRange arr.length) k).Pairwise (List.Lex (· < ·)) ∧
    (generateCombinations arr k).head? =
      (if k ≤ arr.length then some (arr.take k) else none) ∧
    (generateCombinations arr k).getLast? =
      (if k ≤ arr.length then some (arr.drop (arr.length - k)) else none) :=
  ⟨generateCombinations_indices arr k,
    generateCombinations_lex_of_sorted _ _ (List.pairwise_lt_finRange _) k,
    head_generateCombinations arr k, getLast_generateCombinations arr k⟩

/-! ## `baseToDecimal` -/

/-- The `value` computed on lines 10-18 is the digit value of the specification, and the
error of line 17 is thrown for the characters that have none. -/
theorem digitOf_eq (c : Char) :
    digitOf c = match digitValue c with
      | some v => .ok v
      | none => .error (.invalidDigit c) := by
  have h0 : ('0' ≤ c ∧ c ≤ '9') ↔ c.isDigit = true := by
    simp [Char.isDigit, Char.le_def]
  have h1 : ('a' ≤ c ∧ c ≤ 'z') ↔ c.isLower = true := by
    simp [Char.isLower, Char.le_def]
  have h2 : ('A' ≤ c ∧ c ≤ 'Z') ↔ c.isUpper = true := by
    simp [Char.isUpper, Char.le_def]
  unfold digitOf digitValue
  simp only [h0, h1, h2]
  by_cases d0 : c.isDigit = true
  · simp only [d0, if_true]
    rfl
  · by_cases d1 : c.isLower = true
    · simp only [d0, d1, if_true, if_false]
      rfl
    · by_cases d2 : c.isUpper = true
      · simp only [d0, d1, d2, if_true, if_false]
        rfl
      · simp only [d0, d1, d2, if_false]
        rfl

/-- The body of the loop of `baseToDecimal` in terms of the digit value. -/
theorem baseToDecimalStep_eq (b : Nat) (r : Int) (c : Char) :
    baseToDecimalStep b r c = match digitValue c with
      | some v => if b ≤ v then .error (.invalidForBase c b) else .ok (r * (b : Int) + (v : Int))
      | none => .error (.invalidDigit c) := by
  unfold baseToDecimalStep
  rw [digitOf_eq]
  cases digitValue c with
  | none => rfl
  | some v =>
    simp only [bind, Except.bind, ge_iff_le]
    by_cases h : b ≤ v
    · rw [if_pos h, if_pos h]
    · rw [if_neg h, if_neg h]
      rfl

/-- The positional value of a list with a first character. -/
theorem positionalValue_cons (c : Char) (l : List Char) (b : Nat) :
    positionalValue (c :: l) b =
      (((digitValue c).getD 0 : Nat) : Int) * (b : Int) ^ l.length + positionalValue l b := by
  unfold positionalValue
  simp only [List.length_cons]
  rw [Fin.sum_univ_succ]
  congr 1
  refine Finset.sum_congr rfl (fun i _ => ?_)
  have h : l.length + 1 - 1 - (i.succ : Fin (l.length + 1)).1 = l.length - 1 - i.1 := by
    simp only [Fin.val_succ]
    omega
  rw [h]
  rfl

/-- The loop of `baseToDecimal` over digits of value below the base, from any `result`. -/
theorem baseToDecimalFold_valid (b : Nat) (l : List Char)
    (hl : ∀ c ∈ l, ∃ v, digitValue c = some v ∧ v < b) :
    ∀ r : Int, l.foldlM (baseToDecimalStep b) r =
      .ok (r * (b : Int) ^ l.length + positionalValue l b) := by
  induction l with
  | nil =>
    intro r
    simp [positionalValue]
    rfl
  | cons c l ih =>
    intro r
    obtain ⟨v, hv, hvb⟩ := hl c (List.mem_cons_self _ _)
    have hstep : baseToDecimalStep b r c = .ok (r * (b : Int) + (v : Int)) := by
      rw [baseToDecimalStep_eq, hv]
      simp only [if_neg (Nat.not_le.mpr hvb)]
    rw [List.foldlM_cons, hstep]
    show l.foldlM (baseToDecimalStep b) (r * (b : Int) + (v : Int)) = _
    rw [ih (fun x hx => hl x (List.mem_cons_of_mem _ hx)), positionalValue_cons, hv]
    simp only [Option.getD_some, List.length_cons]
    congr 1
    ring

/-- The loop of `baseToDecimal` over a list with a character that is no digit of the base
throws, from any `result`. -/
theorem baseToDecimalFold_invalid (b : Nat) (l : List Char)
    (hl : ∃ c ∈ l, digitValue c = none ∨ ∃ v, digitValue c = some v ∧ b ≤ v) :
    ∀ r : Int, ∃ e, l.foldlM (baseToDecimalStep b) r = .error e := by
  induction l with
  | nil =>
    obtain ⟨c, hc, -⟩ := hl
    cases hc
  | cons x l ih =>
    intro r
    rw [List.foldlM_cons, baseToDecimalStep_eq]
    cases hx : digitValue x with
    | none => exact ⟨_, rfl⟩
    | some v =>
      by_cases hbv : b ≤ v
      · simp only [hbv, if_true]
        exact ⟨_, rfl⟩
      · simp only [hbv, if_false]
        obtain ⟨c, hc, hbad⟩ := hl
        rcases List.mem_cons.mp hc with rfl | hc
        · rcases hbad with h | ⟨w, hw, hbw⟩
          · rw [hx] at h
            cases h
          · rw [hx] at hw
            cases hw
            exact absurd hbw hbv
        · exact ih ⟨c, hc, hbad⟩ _

/-- Every character is a digit of the base, or there is one that is not. -/
theorem digits_valid_or_invalid (b : Nat) (l : List Char) :
    (∀ c ∈ l, ∃ v, digitValue c = some v ∧ v < b) ∨
    (∃ c ∈ l, digitValue c = none ∨ ∃ v, digitValue c = some v ∧ b ≤ v) := by
  by_cases h : ∀ c ∈ l, ∃ v, digitValue c = some v ∧ v < b
  · exact Or.inl h
  · right
    push_neg at h
    obtain ⟨c, hc, hbad⟩ := h
    refine ⟨c, hc, ?_⟩
    cases hv : digitValue c with
    | none => exact Or.inl rfl
    | some v => exact Or.inr ⟨v, rfl, hbad v hv⟩

/-- Claim C13. For every base `b` (in particular `2 ≤ b ≤ 36`) and every string all of whose
characters are digits of value below `b`, `baseToDecimal(s, b)` returns the positional
value, the sum over `i` of `value(s[i]) * b ^ (len(s) - 1 - i)`; the empty string gives `0`. -/
theorem baseToDecimal_positional (s : String) (b : Nat)
    (hs : ∀ c ∈ s.data, ∃ v, digitValue c = some v ∧ v < b) :
    baseToDecimal s b = .ok (positionalValue s.data b) ∧ baseToDecimal "" b = .ok 0 := by
  constructor
  · unfold baseToDecimal
    rw [baseToDecimalFold_valid b s.data hs 0]
    simp
  · rfl

/-- Witness for C13: `"Ff"` in base 16 is `255`. -/
theorem baseToDecimal_positional_witness :
    baseToDecimal "Ff" 16 = .ok (positionalValue "Ff".data 16) ∧
    positionalValue "Ff".data 16 = 255 ∧
    baseToDecimal "" 16 = .ok 0 :=
  have h := baseToDecimal_positional "Ff" 16 (by
    intro c hc
    have hc2 : c = 'F' ∨ c = 'f' := by simpa using hc
    rcases hc2 with rfl | rfl
    · exact ⟨15, by decide, by decide⟩
    · exact ⟨15, by decide, by decide⟩)
  ⟨h.1, by decide, h.2⟩

/-- Claim C14. For every base `b` (in particular `2 ≤ b ≤ 36`) and every string `s`,
`baseToDecimal(s, b)` throws exactly when `s` contains a character that is not in
`'0'`-`'9'`, `'a'`-`'z'`, `'A'`-`'Z'` or whose digit value is at least `b`; it returns a
value exactly when every character is a digit of value below `b`. -/
theorem baseToDecimal_throws_iff (s : String) (b : Nat) :
    ((∃ e, baseToDecimal s b = .error e) ↔
      ∃ c ∈ s.data, digitValue c = none ∨ ∃ v, digitValue c = some v ∧ b ≤ v) ∧
    ((∃ r, baseToDecimal s b = .ok r) ↔
      ∀ c ∈ s.data, ∃ v, digitValue c = some v ∧ v < b) := by
  have hvalid : (∀ c ∈ s.data, ∃ v, digitValue c = some v ∧ v < b) →
      ∃ r, baseToDecimal s b = .ok r :=
    fun h => ⟨_, baseToDecimalFold_valid b s.data h 0⟩
  have hinvalid : (∃ c ∈ s.data, digitValue c = none ∨ ∃ v, digitValue c = some v ∧ b ≤ v) →
      ∃ e, baseToDecimal s b = .error e :=
    fun h => baseToDecimalFold_invalid b s.data h 0
  constructor
  · refine ⟨fun ⟨e, he⟩ => ?_, hinvalid⟩
    rcases digits_valid_or_invalid b s.data with h | h
    · obtain ⟨r, hr⟩ := hvalid h
      rw [hr] at he
      cases he
    · exact h
  · refine ⟨fun ⟨r, hr⟩ => ?_, hvalid⟩
    rcases digits_valid_or_invalid b s.data with h | h
    · exact h
    · obtain ⟨e, he⟩ := hinvalid h
      rw [he] at hr
      cases hr

end Shamir
